import Mathlib

/-!
Shallow embedding of the `synqueue` crate: three bounded MPMC ring-buffer
queues (`AxelQueue` in `src/axel.rs`, `DoubleQueue` in `src/double.rs`,
`MaskedQueue` in `src/masked.rs`) plus `OtherQueue` in `src/other.rs`.

The embedding gives each queue its single-threaded (sequential) semantics:
one thread runs an operation to completion, so every atomic load observes
the current value and every compare-and-swap whose expected value matches
succeeds.  Machine words (`usize`, 64-bit) are modelled as `Nat` with
explicit masks and `% 2 ^ 64` where the code could overflow; the `u32`
`Pointer` fields are `Nat` values kept below `2 ^ 32` by the invariants.
`MaybeUninit<UnsafeCell<T>>` slots are `Option T`: `none` is an
uninitialized slot, and a destructive read (`assume_init_read` /
`ptr::read`) is modelled as taking the value and storing `none`.
An operation that would never return in a sequential run — a spin or yield
loop that can only be released by another thread, or a fatal assertion —
is modelled by returning `none` at the operation's `Option` layer.
-/

namespace SynQueue

/-- Bits of a machine word (`mem::size_of::<usize>() * 8` on the 64-bit
target the crate asserts at build time via `_BITS_CHECK`). -/
def MASK_BITS : Nat := 64

/-- Bits of the `Pointer` (`u32`) type used by Axel and Double;
`State::HEAD_BITS = mem::size_of::<Pointer>() * 8`. -/
def HEAD_BITS : Nat := 32

/-- The packed `(head, tail)` pair of `axel.rs` / `double.rs` / `lib.rs`. -/
structure State where
  head : Nat
  tail : Nat
deriving Repr, DecidableEq

/-- `State::unpack`: `head = raw as Pointer` (truncation to 32 bits),
`tail = (raw >> HEAD_BITS) as Pointer`. -/
def State.unpack (raw : Nat) : State :=
  { head := raw % 2 ^ HEAD_BITS
    tail := (raw >>> HEAD_BITS) % 2 ^ HEAD_BITS }

/-- `State::pack`: `(head as usize) | ((tail as usize) << HEAD_BITS)`. -/
def State.pack (s : State) : Nat :=
  s.head ||| (s.tail <<< HEAD_BITS)

/-- Each variant's `advance`: `(i + 1) mod data.len()`, written with the
explicit wrap test of the source (`if index + 1 == self.data.len() { 0 }`). -/
def advance (len i : Nat) : Nat :=
  if i + 1 = len then 0 else i + 1

/-- One step of the `Drop` walk loop shared by all variants
(`while cursor != head { drop slot; cursor = advance(cursor) }`),
with explicit fuel; every use supplies fuel `len`, which the walk
never exhausts when both indices are in range. -/
def dropLoop (len : Nat) : Nat → Nat → Nat → List Nat
  | 0, _, _ => []
  | fuel + 1, cursor, head =>
    if cursor = head then [] else cursor :: dropLoop len fuel (advance len cursor) head

/-- Ring layout: the slot array of a queue of `len = capacity + 1` slots
whose logical content is `xs`, the oldest element sitting at slot `t`. -/
def ringData (len t : Nat) (xs : List α) : List (Option α) :=
  (List.range len).map (fun j => xs[(j + len - t) % len]?)

/-- Operations of a sequential script. -/
inductive Op (T : Type) where
  | push (v : T)
  | pop
deriving Repr, DecidableEq

/-- Sequence a list of pushes (`pushAll`), collecting each push's result. -/
def pushAll (push : Q → T → Option (Except T Unit × Q)) (q : Q) :
    List T → Option (List (Except T Unit) × Q)
  | [] => some ([], q)
  | v :: rest =>
    match push q v with
    | none => none
    | some (r, q2) =>
      match pushAll push q2 rest with
      | none => none
      | some (rs, q3) => some (r :: rs, q3)

/-- Sequence `n` pops, collecting each pop's result. -/
def popAll (pop : Q → Option (Option T × Q)) (q : Q) :
    Nat → Option (List (Option T) × Q)
  | 0 => some ([], q)
  | n + 1 =>
    match pop q with
    | none => none
    | some (r, q2) =>
      match popAll pop q2 n with
      | none => none
      | some (rs, q3) => some (r :: rs, q3)

/-- Run a sequential script of pushes and pops, returning the final queue. -/
def runOps (push : Q → T → Option (Except T Unit × Q))
    (pop : Q → Option (Option T × Q)) : Q → List (Op T) → Option Q
  | q, [] => some q
  | q, Op.push v :: rest =>
    match push q v with
    | none => none
    | some (_, q2) => runOps push pop q2 rest
  | q, Op.pop :: rest =>
    match pop q with
    | none => none
    | some (_, q2) => runOps push pop q2 rest

section RingLemmas

theorem advance_eq_mod {len i : Nat} (h : i < len) : advance len i = (i + 1) % len := by
  unfold advance
  rcases Nat.lt_or_ge (i + 1) len with h1 | h1
  · rw [if_neg (by omega), Nat.mod_eq_of_lt h1]
  · have : i + 1 = len := by omega
    rw [if_pos this, this, Nat.mod_self]

theorem advance_lt {len i : Nat} (h : i < len) : advance len i < len := by
  unfold advance; split <;> omega

theorem add_mod_cases {len a b : Nat} (ha : a < len) (hb : b < len) :
    (a + b) % len = if a + b < len then a + b else a + b - len := by
  split
  · exact Nat.mod_eq_of_lt (by assumption)
  · rw [Nat.mod_eq_sub_mod (by omega)]
    exact Nat.mod_eq_of_lt (by omega)

theorem ring_roundtrip {len t k : Nat} (ht : t < len) (hk : k < len) :
    ((t + k) % len + len - t) % len = k := by
  rw [add_mod_cases ht hk]
  split
  · have h2 : t + k + len - t = k + len := by omega
    rw [h2, Nat.add_mod_right, Nat.mod_eq_of_lt hk]
  · have h2 : t + k - len + len - t = k := by omega
    rw [h2, Nat.mod_eq_of_lt hk]

theorem ring_inv {len t j : Nat} (ht : t < len) (hj : j < len) :
    (t + (j + len - t) % len) % len = j := by
  have hoff : (j + len - t) % len = if t ≤ j then j - t else j + len - t := by
    rcases Nat.lt_or_ge t j with h | h
    · rw [if_pos (by omega), Nat.mod_eq_sub_mod (by omega)]
      have h2 : j + len - t - len = j - t := by omega
      rw [h2]; exact Nat.mod_eq_of_lt (by omega)
    · rcases Nat.eq_or_lt_of_le h with h | h
      · rw [if_pos (by omega)]
        have h2 : j + len - t = len := by omega
        rw [h2, Nat.mod_self]; omega
      · rw [if_neg (by omega)]; exact Nat.mod_eq_of_lt (by omega)
  rw [hoff]
  split
  · have h2 : t + (j - t) = j := by omega
    rw [h2]; exact Nat.mod_eq_of_lt hj
  · have h2 : t + (j + len - t) = j + len := by omega
    rw [h2, Nat.add_mod_right]; exact Nat.mod_eq_of_lt hj

theorem length_ringData (len t : Nat) (xs : List α) :
    (ringData len t xs).length = len := by
  simp [ringData]

theorem ringData_getElem? {len t j : Nat} (xs : List α) (hj : j < len) :
    (ringData len t xs)[j]? = some xs[(j + len - t) % len]? := by
  simp [ringData, List.getElem?_map, List.getElem?_range hj]

theorem ringData_getElem?_ge {len t j : Nat} (xs : List α) (hj : len ≤ j) :
    (ringData len t xs)[j]? = none := by
  apply List.getElem?_eq_none
  rw [length_ringData]; exact hj

theorem getElem?_append_singleton (xs : List α) (v : α) (i : Nat) :
    (xs ++ [v])[i]? = if i = xs.length then some v else xs[i]? := by
  split
  · subst i; exact List.getElem?_concat_length xs v
  · rcases Nat.lt_or_ge i xs.length with h | h
    · exact List.getElem?_append_left h
    · rw [List.getElem?_append_right h, List.getElem?_eq_none h,
        List.getElem?_eq_none (l := [v]) (by simp; omega)]

/-- Evaluation of the ring offset of physical slot `j` from base `t`. -/
theorem ring_off_eval {len t j : Nat} (ht : t < len) (hj : j < len) :
    (j + len - t) % len = if t ≤ j then j - t else j + len - t := by
  split
  · rcases Nat.eq_or_lt_of_le (by assumption : t ≤ j) with h | h
    · have h2 : j + len - t = len := by omega
      rw [h2, Nat.mod_self]; omega
    · rw [Nat.mod_eq_sub_mod (by omega)]
      have h2 : j + len - t - len = j - t := by omega
      rw [h2]; exact Nat.mod_eq_of_lt (by omega)
  · exact Nat.mod_eq_of_lt (by omega)

/-- Writing the next free slot of a ring extends its content by one value. -/
theorem ringData_set_push {len t : Nat} (xs : List α) (v : α)
    (ht : t < len) (hxs : xs.length < len) :
    (ringData len t xs).set ((t + xs.length) % len) (some v) =
      ringData len t (xs ++ [v]) := by
  apply List.ext_getElem?
  intro j
  rcases Nat.lt_or_ge j len with hj | hj
  · rw [List.getElem?_set, length_ringData, ringData_getElem? (xs ++ [v]) hj]
    by_cases hpos : (t + xs.length) % len = j
    · rw [if_pos hpos, if_pos (by rw [hpos]; exact hj)]
      have hoff : (j + len - t) % len = xs.length := by
        rw [← hpos]; exact ring_roundtrip ht hxs
      rw [hoff, getElem?_append_singleton, if_pos rfl]
    · have hne : (j + len - t) % len ≠ xs.length := by
        intro hoff
        apply hpos
        rw [← hoff]; exact ring_inv ht hj
      rw [if_neg hpos, ringData_getElem? xs hj, getElem?_append_singleton, if_neg hne]
  · rw [List.getElem?_eq_none (by rw [List.length_set, length_ringData]; exact hj),
      ringData_getElem?_ge _ hj]

/-- Destructively reading the oldest slot of a ring drops its first value. -/
theorem ringData_set_pop {len t : Nat} (x : α) (rest : List α)
    (ht : t < len) (hrest : rest.length < len) :
    (ringData len t (x :: rest)).set t none =
      ringData len (advance len t) rest := by
  have hlen : 0 < len := by omega
  have ht2 : advance len t < len := advance_lt ht
  apply List.ext_getElem?
  intro j
  rcases Nat.lt_or_ge j len with hj | hj
  · rw [List.getElem?_set, length_ringData,
      ringData_getElem? rest hj, ring_off_eval ht2 hj]
    by_cases hpos : t = j
    · subst hpos
      rw [if_pos rfl, if_pos ht]
      have hoff : (if advance len t ≤ t then t - advance len t else t + len - advance len t)
          = len - 1 := by
        unfold advance
        split <;> split <;> omega
      rw [hoff, List.getElem?_eq_none (by omega)]
    · rw [if_neg hpos, ringData_getElem? (x :: rest) hj, ring_off_eval ht hj]
      have hcons : ∀ k, 0 < k → (x :: rest)[k]? = rest[k - 1]? := by
        intro k hk
        rcases k with _ | k
        · omega
        · simp
      rcases Nat.lt_or_ge (t + 1) len with hadv | hadv
      · have ha : advance len t = t + 1 := by
          unfold advance; rw [if_neg (by omega)]
        rw [ha]
        rcases Nat.lt_or_ge t j with horder | horder
        · rw [if_pos (show t ≤ j by omega), if_pos (show t + 1 ≤ j by omega),
            hcons (j - t) (by omega)]
          have h2 : j - t - 1 = j - (t + 1) := by omega
          rw [h2]
        · rw [if_neg (show ¬t ≤ j by omega), if_neg (show ¬t + 1 ≤ j by omega),
            hcons (j + len - t) (by omega)]
          have h2 : j + len - t - 1 = j + len - (t + 1) := by omega
          rw [h2]
      · have ha : advance len t = 0 := by
          unfold advance; rw [if_pos (by omega)]
        rw [ha]
        rw [if_neg (show ¬t ≤ j by omega), if_pos (Nat.zero_le j),
          hcons (j + len - t) (by omega)]
        have h2 : j + len - t - 1 = j - 0 := by omega
        rw [h2]
  · rw [List.getElem?_eq_none (by rw [List.length_set, length_ringData]; exact hj),
      ringData_getElem?_ge _ hj]

/-- A ring with content `xs` has exactly `xs.length` occupied slots. -/
theorem ringData_countP {len t : Nat} (xs : List α)
    (ht : t < len) (hxs : xs.length ≤ len) :
    (ringData len t xs).countP (fun o => o.isSome) = xs.length := by
  induction xs using List.reverseRecOn with
  | nil =>
    have hnone : ∀ a ∈ ringData len t ([] : List α), ¬(fun o => o.isSome) a = true := by
      intro a ha
      simp only [ringData, List.mem_map] at ha
      obtain ⟨j, -, hja⟩ := ha
      simp [← hja]
    simp [List.countP_eq_zero.2 hnone]
  | append_singleton ys v ih =>
    have hys : ys.length < len := by simp at hxs; omega
    have hlt : (t + ys.length) % len < (ringData len t ys).length := by
      rw [length_ringData]; exact Nat.mod_lt _ (by omega)
    rw [← ringData_set_push ys v ht hys, List.countP_set _ _ _ _ hlt]
    have h1 : (ringData len t ys)[(t + ys.length) % len]? = some none := by
      rw [ringData_getElem? ys (Nat.mod_lt _ (by omega)), ring_roundtrip ht hys,
        List.getElem?_eq_none (Nat.le_refl _)]
    rw [(List.getElem_eq_iff (h := hlt)).mpr h1, ih (by omega)]
    simp

theorem ring_add_inj {len t k k2 : Nat} (ht : t < len) (hk : k < len) (hk2 : k2 < len)
    (h : (t + k) % len = (t + k2) % len) : k = k2 := by
  have h1 := ring_roundtrip ht hk
  have h2 := ring_roundtrip ht hk2
  rw [h] at h1
  omega

/-- The drop walk with enough fuel visits exactly the `d` slots from `t`. -/
theorem dropLoop_eq_seg {len : Nat} :
    ∀ (d t fuel : Nat), t < len → d < len → d ≤ fuel →
      dropLoop len fuel t ((t + d) % len) =
        (List.range d).map (fun j => (t + j) % len) := by
  intro d
  induction d with
  | zero =>
    intro t fuel ht _ _
    have h0 : (t + 0) % len = t := by
      rw [Nat.add_zero]; exact Nat.mod_eq_of_lt ht
    rw [h0]
    cases fuel with
    | zero => rfl
    | succ f => simp [dropLoop]
  | succ e ih =>
    intro t fuel ht hd hfuel
    rcases fuel with _ | f
    · omega
    have hne : t ≠ (t + (e + 1)) % len := by
      intro hcontra
      have h0 : (t + 0) % len = (t + (e + 1)) % len := by
        rw [Nat.add_zero, Nat.mod_eq_of_lt ht]; exact hcontra
      have := ring_add_inj ht (by omega) (by omega) h0
      omega
    rw [dropLoop, if_neg hne, advance_eq_mod ht]
    have hstep : (t + (e + 1)) % len = ((t + 1) % len + e) % len := by
      rw [Nat.mod_add_mod]
      congr 1
      omega
    rw [hstep, ih ((t + 1) % len) f (Nat.mod_lt _ (by omega)) (by omega) (by omega)]
    rw [List.range_succ_eq_map, List.map_cons, List.map_map]
    congr 1
    · rw [Nat.add_zero]; exact (Nat.mod_eq_of_lt ht).symm
    · apply List.map_congr_left
      intro j _
      show ((t + 1) % len + j) % len = (t + Nat.succ j) % len
      rw [Nat.mod_add_mod]
      congr 1
      omega

end RingLemmas

section BitLemmas

theorem testBit_above {a : Nat} (w i : Nat) (ha : a < 2 ^ w) (hi : w ≤ i) :
    a.testBit i = false :=
  Nat.testBit_lt_two_pow (Nat.lt_of_lt_of_le ha (Nat.pow_le_pow_right (by omega) hi))

/-- Round trip of the 32/32 `(head, tail)` packing used by Axel and Double. -/
theorem unpack_pack {s : State} (hh : s.head < 2 ^ HEAD_BITS) (ht : s.tail < 2 ^ HEAD_BITS) :
    State.unpack s.pack = s := by
  obtain ⟨h, t⟩ := s
  simp only [HEAD_BITS] at hh ht
  have hhead : (h ||| t <<< 32) % 2 ^ 32 = h := by
    apply Nat.eq_of_testBit_eq
    intro i
    rw [Nat.testBit_mod_two_pow, Nat.testBit_or, Nat.testBit_shiftLeft]
    rcases Nat.lt_or_ge i 32 with hi | hi
    · simp [hi, (show ¬i ≥ 32 by omega)]
    · simp [(show ¬i < 32 by omega), testBit_above 32 i hh hi]
  have htail : ((h ||| t <<< 32) >>> 32) % 2 ^ 32 = t := by
    apply Nat.eq_of_testBit_eq
    intro i
    rw [Nat.testBit_mod_two_pow, Nat.testBit_shiftRight, Nat.testBit_or,
      Nat.testBit_shiftLeft]
    rcases Nat.lt_or_ge i 32 with hi | hi
    · have h2 : 32 + i - 32 = i := by omega
      simp [hi, testBit_above 32 (32 + i) hh (by omega), h2]
    · simp [(show ¬i < 32 by omega), testBit_above 32 i ht hi]
  simp only [State.unpack, State.pack, HEAD_BITS]
  rw [hhead, htail]

theorem one_shiftLeft_eq (p : Nat) : 1 <<< p = 2 ^ p := by
  rw [Nat.shiftLeft_eq, Nat.one_mul]

theorem and_two_pow_eq_zero_iff (w p : Nat) :
    w &&& 2 ^ p = 0 ↔ w.testBit p = false := by
  rw [Nat.and_two_pow]
  cases h : w.testBit p
  · simp [h]
  · have hpos : 0 < 2 ^ p := Nat.pos_pow_of_pos p (by omega)
    simp [h]

/-- 64-bit complement, the Rust `!x` on `usize`. -/
def not64 (x : Nat) : Nat := (2 ^ MASK_BITS - 1) ^^^ x

/-- Bit length of a word, by explicit structural recursion so that the
kernel can evaluate it (fuel 64 suffices for any 64-bit word). -/
def word_len : Nat → Nat → Nat
  | 0, _ => 0
  | fuel + 1, x => if x = 0 then 0 else word_len fuel (x / 2) + 1

theorem word_len_le {fuel k x : Nat} (hx : x < 2 ^ k) (hk : k ≤ fuel) :
    word_len fuel x ≤ k := by
  induction fuel generalizing x k with
  | zero => simp [word_len]
  | succ fuel ih =>
    unfold word_len
    split
    · omega
    · have hx0 : 0 < x := by omega
      have hk1 : 1 ≤ k := by
        by_contra hc
        have hk0 : k = 0 := by omega
        rw [hk0] at hx
        simp at hx
        omega
      have hpow : 2 ^ (k - 1) * 2 = 2 ^ k := by
        rw [← Nat.pow_succ]
        exact congrArg (2 ^ ·) (Nat.sub_add_cancel hk1)
      have hx2 : x / 2 < 2 ^ (k - 1) := by omega
      have := ih hx2 (by omega)
      omega

theorem testBit_or_two_pow (w p i : Nat) :
    (w ||| 2 ^ p).testBit i = (w.testBit i || decide (p = i)) := by
  rw [Nat.testBit_or, Nat.testBit_two_pow]

theorem testBit_and_not64_two_pow (w p i : Nat) (hi : i < 64) :
    (w &&& not64 (2 ^ p)).testBit i = (w.testBit i && !decide (p = i)) := by
  rw [not64, Nat.testBit_and, Nat.testBit_xor, Nat.testBit_two_pow,
    MASK_BITS, Nat.testBit_two_pow_sub_one]
  rcases h : decide (p = i) <;> simp [hi, h]

end BitLemmas

section MoreHelpers

theorem getD_set_self {l : List Nat} {i : Nat} (h : i < l.length) (a : Nat) :
    (l.set i a).getD i 0 = a := by
  rw [List.getD_eq_getElem?_getD, List.getElem?_set_self h]; rfl

theorem getD_set_ne {l : List Nat} {i j : Nat} (h : i ≠ j) (a : Nat) :
    (l.set i a).getD j 0 = l.getD j 0 := by
  rw [List.getD_eq_getElem?_getD, List.getElem?_set_ne h, ← List.getD_eq_getElem?_getD]

theorem ringData_nil (len t : Nat) : ringData len t ([] : List α) = List.replicate len none := by
  apply List.ext_getElem?
  intro j
  rcases Nat.lt_or_ge j len with hj | hj
  · rw [ringData_getElem? _ hj, List.getElem?_replicate, if_pos hj]
    rfl
  · rw [ringData_getElem?_ge _ hj, List.getElem?_replicate, if_neg (by omega)]

theorem getD_replicate_zero (n i : Nat) : (List.replicate n (0 : Nat)).getD i 0 = 0 := by
  rw [List.getD_eq_getElem?_getD, List.getElem?_replicate]
  split <;> rfl

theorem advance_ring {C t k : Nat} :
    advance (C + 1) ((t + k) % (C + 1)) = (t + (k + 1)) % (C + 1) := by
  rw [advance_eq_mod (Nat.mod_lt _ (by omega)), Nat.mod_add_mod, Nat.add_assoc]

theorem ring_full_wrap {C t : Nat} (ht : t < C + 1) : (t + (C + 1)) % (C + 1) = t := by
  rw [Nat.add_mod_right]
  exact Nat.mod_eq_of_lt ht

theorem ring_ne_of_pos {C t k : Nat} (ht : t < C + 1) (hk : 0 < k) (hk2 : k < C + 1) :
    (t + k) % (C + 1) ≠ t := by
  intro hcontra
  have h0 : (t + k) % (C + 1) = (t + 0) % (C + 1) := by
    rw [hcontra, Nat.add_zero, Nat.mod_eq_of_lt ht]
  have := ring_add_inj ht hk2 (by omega) h0
  omega

theorem slot_word_eq {j h : Nat} (hw : j / MASK_BITS = h / MASK_BITS)
    (hb : j % MASK_BITS = h % MASK_BITS) : j = h := by
  rw [MASK_BITS] at hw hb
  omega

end MoreHelpers

namespace Axel

/-- `AxelQueue` of `src/axel.rs`: one packed `(head, tail)` word, an
occupancy bitmap (a boxed slice of atomic words), and the slot array. -/
structure AxelQueue (T : Type) where
  state : Nat
  occupation : List Nat
  data : List (Option T)
deriving Repr, DecidableEq

/-- `AxelQueue::new`: `num_words = 1 + capacity / MASK_BITS` bitmap words,
all zero, and `capacity + 1` uninitialized slots (`0..=capacity`). -/
def new (capacity : Nat) : AxelQueue T :=
  { state := 0
    occupation := List.replicate (1 + capacity / MASK_BITS) 0
    data := List.replicate (capacity + 1) none }

/-- `AxelQueue::push`, sequential semantics.  The CAS loop runs with no
interference, so the weak CAS retries until it succeeds with the same
outcome; one iteration is taken.  Returning `none` models the sequential
spin forever on the `mask & bit != 0` reload path (a prior `pop` that never
finishes cannot happen single-threaded).  The `debug_assert_eq!(old & bit, 0)`
after `fetch_or` holds by the branch condition just checked. -/
def push (q : AxelQueue T) (value : T) : Option (Except T Unit × AxelQueue T) :=
  let s := State.unpack q.state
  let next := advance q.data.length s.head
  if next = s.tail then
    some (Except.error value, q)
  else
    let index := s.head
    let bit := 1 <<< (index % MASK_BITS)
    let mask := q.occupation.getD (index / MASK_BITS) 0
    if mask &&& bit = 0 then
      some (Except.ok (),
        { state := (State.mk next s.tail).pack
          occupation := q.occupation.set (index / MASK_BITS) (mask ||| bit)
          data := q.data.set index (some value) })
    else
      none

/-- `AxelQueue::pop`, sequential semantics.  The destructive
`ptr::read(..).into_inner()` of the slot is modelled as taking the slot's
content and storing `none`; `fetch_and(!bit)` clears the occupancy bit.
`none` models the sequential spin on the `mask & bit == 0` reload path. -/
def pop (q : AxelQueue T) : Option (Option T × AxelQueue T) :=
  let s := State.unpack q.state
  if s.head = s.tail then
    some (none, q)
  else
    let index := s.tail
    let bit := 1 <<< (index % MASK_BITS)
    let mask := q.occupation.getD (index / MASK_BITS) 0
    if mask &&& bit ≠ 0 then
      let next := advance q.data.length s.tail
      match q.data.getD index none with
      | none => none
      | some x =>
        some (some x,
          { state := (State.mk s.head next).pack
            occupation := q.occupation.set (index / MASK_BITS) (mask &&& not64 bit)
            data := q.data.set index none })
    else
      none

/-- Slots visited by `Drop for AxelQueue`: walk from `tail` to `head`. -/
def dropSlots (q : AxelQueue T) : List Nat :=
  let s := State.unpack q.state
  dropLoop q.data.length q.data.length s.tail s.head

/-- Values destructed by `Drop for AxelQueue` (`ptr::read` of each visited
slot): `none` entries would be reads of uninitialized slots. -/
def dropReads (q : AxelQueue T) : List (Option T) :=
  (dropSlots q).map (fun i => q.data.getD i none)

/-- Ring-layout invariant tying a sequential `AxelQueue` state to its
abstract content `xs`, oldest element at slot `t`.  `hlen32` is the
`Pointer`-width bound under which the `Nat` model is exact. -/
structure Rep (C t : Nat) (xs : List T) (q : AxelQueue T) : Prop where
  hlen32 : C + 1 ≤ 2 ^ 32
  ht : t < C + 1
  hxs : xs.length ≤ C
  hstate : q.state = (State.mk ((t + xs.length) % (C + 1)) t).pack
  hdata : q.data = ringData (C + 1) t xs
  hocc_len : q.occupation.length = 1 + C / MASK_BITS
  hocc : ∀ j, j < C + 1 →
    (q.occupation.getD (j / MASK_BITS) 0).testBit (j % MASK_BITS) =
      (xs[(j + (C + 1) - t) % (C + 1)]?).isSome

theorem axel_rep_data_length {C t : Nat} {xs : List T} {q : AxelQueue T} (h : Rep C t xs q) :
    q.data.length = C + 1 := by
  rw [h.hdata, length_ringData]

theorem axel_rep_unpack {C t : Nat} {xs : List T} {q : AxelQueue T} (h : Rep C t xs q) :
    State.unpack q.state = State.mk ((t + xs.length) % (C + 1)) t := by
  rw [h.hstate]
  exact unpack_pack
    (Nat.lt_of_lt_of_le (Nat.mod_lt _ (by omega)) h.hlen32)
    (Nat.lt_of_lt_of_le h.ht h.hlen32)

theorem axel_new_rep (C : Nat) (h32 : C + 1 ≤ 2 ^ 32) : Rep C 0 ([] : List T) (new C) := by
  constructor
  · exact h32
  · omega
  · simp
  · simp [new, State.pack, Nat.shiftLeft_eq]
  · simp [new, ringData_nil]
  · simp [new]
  · intro j hj
    simp [new, getD_replicate_zero, Nat.zero_testBit]

theorem axel_push_full {C t : Nat} {xs : List T} {q : AxelQueue T} (h : Rep C t xs q)
    (v : T) (hfull : xs.length = C) : push q v = some (Except.error v, q) := by
  have hs := axel_rep_unpack h
  have hlen := axel_rep_data_length h
  have hnext : advance (C + 1) ((t + xs.length) % (C + 1)) = t := by
    rw [advance_ring, hfull, ring_full_wrap h.ht]
  simp only [push, hlen, hs]
  rw [hnext, if_pos rfl]

theorem axel_pop_none {C t : Nat} {q : AxelQueue T} (h : Rep C t ([] : List T) q) :
    pop q = some (none, q) := by
  have hs := axel_rep_unpack h
  have heq : (t + ([] : List T).length) % (C + 1) = t := by
    simp [Nat.mod_eq_of_lt h.ht]
  rw [heq] at hs
  simp [pop, hs]

theorem axel_push_ok {C t : Nat} {xs : List T} {q : AxelQueue T} (h : Rep C t xs q)
    (v : T) (hroom : xs.length < C) :
    ∃ q2, push q v = some (Except.ok (), q2) ∧ Rep C t (xs ++ [v]) q2 := by
  have hs := axel_rep_unpack h
  have hlen := axel_rep_data_length h
  have hhd : (t + xs.length) % (C + 1) < C + 1 := Nat.mod_lt _ (by omega)
  have hadv : advance (C + 1) ((t + xs.length) % (C + 1)) =
      (t + (xs.length + 1)) % (C + 1) := advance_ring
  have hne : (t + (xs.length + 1)) % (C + 1) ≠ t :=
    ring_ne_of_pos h.ht (by omega) (by omega)
  have hoff_hd : ((t + xs.length) % (C + 1) + (C + 1) - t) % (C + 1) = xs.length :=
    ring_roundtrip h.ht (by omega)
  have hmask : q.occupation.getD ((t + xs.length) % (C + 1) / MASK_BITS) 0 &&&
      1 <<< ((t + xs.length) % (C + 1) % MASK_BITS) = 0 := by
    rw [one_shiftLeft_eq, and_two_pow_eq_zero_iff, h.hocc _ hhd, hoff_hd,
      List.getElem?_eq_none (Nat.le_refl _)]
    rfl
  have hword_lt : (t + xs.length) % (C + 1) / MASK_BITS < q.occupation.length := by
    rw [h.hocc_len, MASK_BITS]
    have hdiv : (t + xs.length) % (C + 1) / 64 ≤ C / 64 :=
      Nat.div_le_div_right (by omega)
    omega
  -- unchanged slots keep their occupancy value
  have hsame : ∀ j, j < C + 1 → j ≠ (t + xs.length) % (C + 1) →
      ((xs ++ [v])[(j + (C + 1) - t) % (C + 1)]?).isSome =
        (xs[(j + (C + 1) - t) % (C + 1)]?).isSome := by
    intro j hj hjne
    have hoff_ne : (j + (C + 1) - t) % (C + 1) ≠ xs.length := by
      intro hcontra
      have hinv := @ring_inv (C + 1) _ _ h.ht hj
      rw [hcontra] at hinv
      exact hjne hinv.symm
    rw [getElem?_append_singleton, if_neg hoff_ne]
  refine ⟨{ state := (State.mk ((t + (xs.length + 1)) % (C + 1)) t).pack
            occupation := q.occupation.set ((t + xs.length) % (C + 1) / MASK_BITS)
              (q.occupation.getD ((t + xs.length) % (C + 1) / MASK_BITS) 0 |||
                1 <<< ((t + xs.length) % (C + 1) % MASK_BITS))
            data := q.data.set ((t + xs.length) % (C + 1)) (some v) }, ?_, ?_⟩
  · simp only [push, hlen, hs]
    rw [hadv, if_neg hne, if_pos hmask]
  · constructor
    · exact h.hlen32
    · exact h.ht
    · simp only [List.length_append, List.length_singleton]
      omega
    · simp only [List.length_append, List.length_singleton]
    · rw [h.hdata, ringData_set_push xs v h.ht (by omega)]
    · rw [List.length_set, h.hocc_len]
    · intro j hj
      by_cases hw : (t + xs.length) % (C + 1) / MASK_BITS = j / MASK_BITS
      · rw [hw, getD_set_self (by rw [← hw]; exact hword_lt), one_shiftLeft_eq,
          testBit_or_two_pow]
        by_cases hj_eq : j = (t + xs.length) % (C + 1)
        · subst hj_eq
          rw [hoff_hd, getElem?_append_singleton, if_pos rfl]
          simp
        · have hb : ¬((t + xs.length) % (C + 1) % MASK_BITS = j % MASK_BITS) := by
            intro hb
            exact hj_eq (slot_word_eq hw.symm hb.symm)
          rw [hsame j hj hj_eq, decide_eq_false hb, Bool.or_false]
          exact h.hocc j hj
      · rw [getD_set_ne hw, hsame j hj (fun hcontra => hw (by rw [hcontra]))]
        exact h.hocc j hj

theorem axel_pop_some {C t : Nat} {x : T} {rest : List T} {q : AxelQueue T}
    (h : Rep C t (x :: rest) q) :
    ∃ q2, pop q = some (some x, q2) ∧ Rep C (advance (C + 1) t) rest q2 := by
  have hs := axel_rep_unpack h
  have hlen := axel_rep_data_length h
  have hxs := h.hxs
  have ht := h.ht
  have hhd : (t + (x :: rest).length) % (C + 1) < C + 1 := Nat.mod_lt _ (by omega)
  have hne : (t + (x :: rest).length) % (C + 1) ≠ t := by
    apply ring_ne_of_pos h.ht
    · simp
    · simp only [List.length_cons] at hxs ⊢
      omega
  have hoff_t : (t + (C + 1) - t) % (C + 1) = 0 := by
    have he : t + (C + 1) - t = C + 1 := by omega
    rw [he, Nat.mod_self]
  have hbit : ¬(q.occupation.getD (t / MASK_BITS) 0 &&& 1 <<< (t % MASK_BITS) = 0) := by
    rw [one_shiftLeft_eq, and_two_pow_eq_zero_iff, h.hocc t h.ht, hoff_t]
    simp
  have hval : q.data.getD t none = some x := by
    rw [h.hdata, List.getD_eq_getElem?_getD, ringData_getElem? _ h.ht, hoff_t]
    simp
  have hword_lt : t / MASK_BITS < q.occupation.length := by
    rw [h.hocc_len, MASK_BITS]
    have hdiv : t / 64 ≤ C / 64 := Nat.div_le_div_right (by omega)
    omega
  have hdata2 := ringData_set_pop x rest h.ht
    (show rest.length < C + 1 by simp only [List.length_cons] at hxs; omega)
  -- unchanged slots: relate old offsets into x :: rest with new offsets into rest
  have hptr : ∀ j, j < C + 1 → j ≠ t →
      (x :: rest)[(j + (C + 1) - t) % (C + 1)]? =
        rest[(j + (C + 1) - advance (C + 1) t) % (C + 1)]? := by
    intro j hj hjne
    have e := congrArg (fun l => l[j]?) hdata2
    simp only at e
    rw [List.getElem?_set_ne hjne.symm, ringData_getElem? _ hj, ringData_getElem? _ hj] at e
    exact Option.some.inj e
  have hslot_t : rest[(t + (C + 1) - advance (C + 1) t) % (C + 1)]? = none := by
    have e := congrArg (fun l => l[t]?) hdata2
    simp only at e
    rw [List.getElem?_set_self (by rw [length_ringData]; omega),
      ringData_getElem? _ h.ht] at e
    exact (Option.some.inj e).symm
  refine ⟨{ state := (State.mk ((t + (x :: rest).length) % (C + 1)) (advance (C + 1) t)).pack
            occupation := q.occupation.set (t / MASK_BITS)
              (q.occupation.getD (t / MASK_BITS) 0 &&& not64 (1 <<< (t % MASK_BITS)))
            data := q.data.set t none }, ?_, ?_⟩
  · simp only [pop, hlen, hs]
    rw [if_neg hne, if_pos hbit, hval]
  · constructor
    · exact h.hlen32
    · exact advance_lt h.ht
    · simp only [List.length_cons] at hxs
      omega
    · have harr : (advance (C + 1) t + rest.length) % (C + 1) =
          (t + (x :: rest).length) % (C + 1) := by
        rw [advance_eq_mod h.ht, Nat.mod_add_mod, List.length_cons]
        congr 1
        omega
      rw [harr]
    · rw [h.hdata, hdata2]
    · rw [List.length_set, h.hocc_len]
    · intro j hj
      by_cases hw : t / MASK_BITS = j / MASK_BITS
      · rw [hw, getD_set_self (by rw [← hw]; exact hword_lt), one_shiftLeft_eq,
          testBit_and_not64_two_pow _ _ _ (by rw [MASK_BITS]; omega)]
        by_cases hj_eq : j = t
        · subst hj_eq
          rw [hslot_t]
          simp
        · have hb : ¬(t % MASK_BITS = j % MASK_BITS) := by
            intro hb
            exact hj_eq (slot_word_eq hw.symm hb.symm)
          rw [← hptr j hj hj_eq, decide_eq_false hb, Bool.not_false, Bool.and_true]
          exact h.hocc j hj
      · rw [getD_set_ne hw, ← hptr j hj (fun hcontra => hw (by rw [hcontra]))]
        exact h.hocc j hj

end Axel

namespace Double

/-- `DoubleQueue` of `src/double.rs`: two packed `(head, tail)` words
(`wide` and `narrow`) and the slot array. -/
structure DoubleQueue (T : Type) where
  wide : Nat
  narrow : Nat
  data : List (Option T)
deriving Repr, DecidableEq

/-- `DoubleQueue::new`: both states zero, `capacity + 1` slots. -/
def new (capacity : Nat) : DoubleQueue T :=
  { wide := 0, narrow := 0, data := List.replicate (capacity + 1) none }

/-- `DoubleQueue::push`, sequential semantics: reserve on `wide` (the CAS
succeeds single-threaded), write the slot, then the catch-up CAS on
`narrow` with expected head equal to the reserved head.  If the expected
word does not match, the loop re-reads the same word forever (`none`). -/
def push (q : DoubleQueue T) (value : T) : Option (Except T Unit × DoubleQueue T) :=
  let s := State.unpack q.wide
  let next := advance q.data.length s.head
  if next = s.tail then
    some (Except.error value, q)
  else
    let q1 : DoubleQueue T :=
      { q with wide := (State.mk next s.tail).pack
               data := q.data.set s.head (some value) }
    let ns := State.unpack q1.narrow
    if q1.narrow = (State.mk s.head ns.tail).pack then
      some (Except.ok (), { q1 with narrow := (State.mk next ns.tail).pack })
    else
      none

/-- `DoubleQueue::pop`, sequential semantics: reserve on `narrow`, read the
slot destructively, then the catch-up CAS on `wide` with expected tail
equal to the reserved tail. -/
def pop (q : DoubleQueue T) : Option (Option T × DoubleQueue T) :=
  let s := State.unpack q.narrow
  if s.head = s.tail then
    some (none, q)
  else
    let next := advance q.data.length s.tail
    match q.data.getD s.tail none with
    | none => none
    | some x =>
      let q1 : DoubleQueue T :=
        { q with narrow := (State.mk s.head next).pack
                 data := q.data.set s.tail none }
      let ws := State.unpack q1.wide
      if q1.wide = (State.mk ws.head s.tail).pack then
        some (some x, { q1 with wide := (State.mk ws.head next).pack })
      else
        none

/-- Slots visited by `Drop for DoubleQueue` after its assertion. -/
def dropSlots (q : DoubleQueue T) : List Nat :=
  let s := State.unpack q.wide
  dropLoop q.data.length q.data.length s.tail s.head

/-- `Drop for DoubleQueue`: `assert_eq!(wide, narrow)`, then walk `tail`
to `head` dropping each slot (`assume_init_drop`); `none` is the fatal
assertion. -/
def dropReads (q : DoubleQueue T) : Option (List (Option T)) :=
  if q.wide = q.narrow then
    some ((dropSlots q).map (fun i => q.data.getD i none))
  else
    none

/-- Ring-layout invariant for sequential `DoubleQueue` states. -/
structure Rep (C t : Nat) (xs : List T) (q : DoubleQueue T) : Prop where
  hlen32 : C + 1 ≤ 2 ^ 32
  ht : t < C + 1
  hxs : xs.length ≤ C
  hwide : q.wide = (State.mk ((t + xs.length) % (C + 1)) t).pack
  hnarrow : q.narrow = q.wide
  hdata : q.data = ringData (C + 1) t xs

theorem double_rep_data_length {C t : Nat} {xs : List T} {q : DoubleQueue T} (h : Rep C t xs q) :
    q.data.length = C + 1 := by
  rw [h.hdata, length_ringData]

theorem double_rep_unpack {C t : Nat} {xs : List T} {q : DoubleQueue T} (h : Rep C t xs q) :
    State.unpack q.wide = State.mk ((t + xs.length) % (C + 1)) t := by
  rw [h.hwide]
  exact unpack_pack
    (Nat.lt_of_lt_of_le (Nat.mod_lt _ (by omega)) h.hlen32)
    (Nat.lt_of_lt_of_le h.ht h.hlen32)

theorem double_new_rep (C : Nat) (h32 : C + 1 ≤ 2 ^ 32) : Rep C 0 ([] : List T) (new C) := by
  constructor
  · exact h32
  · omega
  · simp
  · simp [new, State.pack, Nat.shiftLeft_eq]
  · rfl
  · simp [new, ringData_nil]

theorem double_push_full {C t : Nat} {xs : List T} {q : DoubleQueue T} (h : Rep C t xs q)
    (v : T) (hfull : xs.length = C) : push q v = some (Except.error v, q) := by
  have hs := double_rep_unpack h
  have hlen := double_rep_data_length h
  have hnext : advance (C + 1) ((t + xs.length) % (C + 1)) = t := by
    rw [advance_ring, hfull, ring_full_wrap h.ht]
  simp only [push, hlen, hs]
  rw [hnext, if_pos rfl]

theorem double_pop_none {C t : Nat} {q : DoubleQueue T} (h : Rep C t ([] : List T) q) :
    pop q = some (none, q) := by
  have hs := double_rep_unpack h
  have heq : (t + ([] : List T).length) % (C + 1) = t := by
    simp [Nat.mod_eq_of_lt h.ht]
  rw [heq] at hs
  rw [← h.hnarrow] at hs
  simp [pop, hs]

theorem double_push_ok {C t : Nat} {xs : List T} {q : DoubleQueue T} (h : Rep C t xs q)
    (v : T) (hroom : xs.length < C) :
    ∃ q2, push q v = some (Except.ok (), q2) ∧ Rep C t (xs ++ [v]) q2 := by
  have hs := double_rep_unpack h
  have hlen := double_rep_data_length h
  have hns : State.unpack q.narrow = State.mk ((t + xs.length) % (C + 1)) t := by
    rw [h.hnarrow]; exact hs
  have hadv : advance (C + 1) ((t + xs.length) % (C + 1)) =
      (t + (xs.length + 1)) % (C + 1) := advance_ring
  have hne : (t + (xs.length + 1)) % (C + 1) ≠ t :=
    ring_ne_of_pos h.ht (by omega) (by omega)
  have hcas : q.narrow = (State.mk ((t + xs.length) % (C + 1)) t).pack := by
    rw [h.hnarrow, h.hwide]
  refine ⟨{ wide := (State.mk ((t + (xs.length + 1)) % (C + 1)) t).pack
            narrow := (State.mk ((t + (xs.length + 1)) % (C + 1)) t).pack
            data := q.data.set ((t + xs.length) % (C + 1)) (some v) }, ?_, ?_⟩
  · simp only [push, hlen, hs, hns]
    rw [hadv, if_neg hne, if_pos hcas]
  · constructor
    · exact h.hlen32
    · exact h.ht
    · simp only [List.length_append, List.length_singleton]
      omega
    · simp only [List.length_append, List.length_singleton]
    · rfl
    · rw [h.hdata, ringData_set_push xs v h.ht (by omega)]

theorem double_pop_some {C t : Nat} {x : T} {rest : List T} {q : DoubleQueue T}
    (h : Rep C t (x :: rest) q) :
    ∃ q2, pop q = some (some x, q2) ∧ Rep C (advance (C + 1) t) rest q2 := by
  have hs := double_rep_unpack h
  have hlen := double_rep_data_length h
  have hxs := h.hxs
  have ht := h.ht
  have hns : State.unpack q.narrow = State.mk ((t + (x :: rest).length) % (C + 1)) t := by
    rw [h.hnarrow]; exact hs
  have hne : (t + (x :: rest).length) % (C + 1) ≠ t := by
    apply ring_ne_of_pos h.ht
    · simp
    · simp only [List.length_cons] at hxs ⊢
      omega
  have hoff_t : (t + (C + 1) - t) % (C + 1) = 0 := by
    have he : t + (C + 1) - t = C + 1 := by omega
    rw [he, Nat.mod_self]
  have hval : q.data.getD t none = some x := by
    rw [h.hdata, List.getD_eq_getElem?_getD, ringData_getElem? _ h.ht, hoff_t]
    simp
  have hcas : q.wide = (State.mk ((t + (x :: rest).length) % (C + 1)) t).pack := h.hwide
  have hdata2 := ringData_set_pop x rest h.ht
    (show rest.length < C + 1 by simp only [List.length_cons] at hxs; omega)
  refine ⟨{ wide := (State.mk ((t + (x :: rest).length) % (C + 1)) (advance (C + 1) t)).pack
            narrow := (State.mk ((t + (x :: rest).length) % (C + 1)) (advance (C + 1) t)).pack
            data := q.data.set t none }, ?_, ?_⟩
  · simp only [pop, hlen, hns, hs]
    rw [if_neg hne, hval]
    dsimp only
    rw [if_pos hcas]
  · constructor
    · exact h.hlen32
    · exact advance_lt h.ht
    · simp only [List.length_cons] at hxs
      omega
    · have harr : (advance (C + 1) t + rest.length) % (C + 1) =
          (t + (x :: rest).length) % (C + 1) := by
        rw [advance_eq_mod h.ht, Nat.mod_add_mod, List.length_cons]
        congr 1
        omega
      rw [harr]
    · rfl
    · rw [h.hdata, hdata2]

end Double

/-- Model of `usize::is_power_of_two` (exactly one bit set):
`n != 0 && n & (n - 1) == 0`, the standard library's documented semantics. -/
def is_power_of_two (n : Nat) : Bool :=
  n != 0 && (n &&& (n - 1)) == 0

namespace Masked

/-- `INDEX_BITS = 20` of `src/masked.rs`. -/
def INDEX_BITS : Nat := 20

/-- `INDEX_MASK = (1 << INDEX_BITS) - 1`. -/
def INDEX_MASK : Nat := (1 <<< INDEX_BITS) - 1

/-- `TOTAL_BITS = mem::size_of::<usize>() * 8 = 64`. -/
def TOTAL_BITS : Nat := 64

/-- Model of `usize::leading_zeros` for a 64-bit word: a word below
`2 ^ 64` has `64 - bit_length` leading zeros. -/
def leading_zeros (x : Nat) : Nat := TOTAL_BITS - word_len TOTAL_BITS x

/-- `MaskedQueue` of `src/masked.rs`: independent `head` and `tail` words
(index in the low `INDEX_BITS`, in-flight mask above) and the slot array. -/
structure MaskedQueue (T : Type) where
  head : Nat
  tail : Nat
  data : List (Option T)
deriving Repr, DecidableEq

/-- The `BoundsCheck` enum of `src/masked.rs`. -/
inductive BoundsCheck where
  | OldValue
  | NewValue
deriving Repr, DecidableEq

/-- `MaskedQueue::get_last_used_index`.  The method only uses `&self` for
`self.data.len()`, passed here as `len`.  `saturating_sub` is `Nat`
subtraction. -/
def get_last_used_index (len rich_index : Nat) : Nat :=
  let index := rich_index &&& INDEX_MASK
  let offset := (TOTAL_BITS - INDEX_BITS) - leading_zeros rich_index
  if index ≥ offset then index - offset else index + len - offset

/-- `MaskedQueue::cas_acquire`, sequential semantics.  `main` and `guard`
are the current values of the two atomic words.  The outer `none` models
the `while main >= (1 << (TOTAL_BITS - 1))` yield loop, which never ends
single-threaded; the inner `none` is the full/empty refusal (the source
re-loads `guard` once, but sequentially it re-reads the same value, so the
second comparison is equal again).  The single-threaded CAS succeeds.
The `% 2 ^ TOTAL_BITS` makes the `<< 1` drop a high bit as `usize` does;
under the preceding guard it is the identity. -/
def cas_acquire (len main guard : Nat) (bounds_check : BoundsCheck) :
    Option (Option (Nat × Nat)) :=
  let last_used_index := get_last_used_index len guard
  if 1 <<< (TOTAL_BITS - 1) ≤ main then
    none
  else
    let next0 := ((main &&& not64 INDEX_MASK) <<< 1) % 2 ^ TOTAL_BITS ||| (1 <<< INDEX_BITS)
    let next := if (main &&& INDEX_MASK) + 1 ≠ len then
        next0 ||| ((main &&& INDEX_MASK) + 1)
      else
        next0
    let check_index := match bounds_check with
      | BoundsCheck.OldValue => main &&& INDEX_MASK
      | BoundsCheck.NewValue => next &&& INDEX_MASK
    if check_index = last_used_index then
      some none
    else
      some (some (main &&& INDEX_MASK, next))

/-- `MaskedQueue::cas_release`, sequential semantics: the CAS succeeds on
the first try with `current` the actual word.  `none` models either fatal
assertion (`offset + INDEX_BITS <= TOTAL_BITS`, or the released bit not
being set). -/
def cas_release (len current done_index : Nat) : Option Nat :=
  let cur_index := current &&& INDEX_MASK
  let offset := if cur_index > done_index then cur_index - done_index
    else cur_index + len - done_index
  if offset + INDEX_BITS ≤ TOTAL_BITS then
    let bit := 1 <<< (INDEX_BITS - 1 + offset)
    if current &&& bit ≠ 0 then
      some (current ^^^ bit)
    else
      none
  else
    none

/-- `MaskedQueue::new` behind its `assert!(capacity.is_power_of_two())`:
`none` is the fatal assertion. -/
def new? (capacity : Nat) : Option (MaskedQueue T) :=
  if is_power_of_two capacity then
    some { head := 0, tail := 0, data := List.replicate (capacity + 1) none }
  else
    none

/-- `MaskedQueue::push`, sequential semantics: acquire on `head` guarded by
`tail` with `BoundsCheck::NewValue`, write the slot, release on `head`. -/
def push (q : MaskedQueue T) (value : T) : Option (Except T Unit × MaskedQueue T) :=
  match cas_acquire q.data.length q.head q.tail BoundsCheck.NewValue with
  | none => none
  | some none => some (Except.error value, q)
  | some (some (index, next)) =>
    match cas_release q.data.length next index with
    | none => none
    | some released =>
      some (Except.ok (), { q with head := released, data := q.data.set index (some value) })

/-- `MaskedQueue::pop`, sequential semantics: acquire on `tail` guarded by
`head` with `BoundsCheck::OldValue`, read the slot destructively, release
on `tail`. -/
def pop (q : MaskedQueue T) : Option (Option T × MaskedQueue T) :=
  match cas_acquire q.data.length q.tail q.head BoundsCheck.OldValue with
  | none => none
  | some none => some (none, q)
  | some (some (index, next)) =>
    match q.data.getD index none with
    | none => none
    | some x =>
      match cas_release q.data.length next index with
      | none => none
      | some released =>
        some (some x, { q with tail := released, data := q.data.set index none })

/-- Slots visited by `Drop for MaskedQueue` after its assertions; its
`cursor += 1; if cursor == len { 0 }` walk is the shared wrap step. -/
def dropSlots (q : MaskedQueue T) : List Nat :=
  dropLoop q.data.length q.data.length q.tail q.head

/-- `Drop for MaskedQueue`: `assert_eq!(head & !INDEX_MASK, 0)` and the
same for `tail` (no in-flight mask bits), then walk `tail` to `head`
dropping each slot; `none` is a fatal assertion. -/
def dropReads (q : MaskedQueue T) : Option (List (Option T)) :=
  if q.head &&& not64 INDEX_MASK ≠ 0 then
    none
  else if q.tail &&& not64 INDEX_MASK ≠ 0 then
    none
  else
    some ((dropSlots q).map (fun i => q.data.getD i none))

section MaskedBits

theorem INDEX_MASK_eq : INDEX_MASK = 2 ^ 20 - 1 := by
  rw [INDEX_MASK, INDEX_BITS, one_shiftLeft_eq]

theorem and_mask_eq_mod (m : Nat) : m &&& INDEX_MASK = m % 2 ^ 20 := by
  rw [INDEX_MASK_eq, Nat.and_pow_two_sub_one_eq_mod]

theorem and_mask_small {m : Nat} (hm : m < 2 ^ 20) : m &&& INDEX_MASK = m := by
  rw [and_mask_eq_mod, Nat.mod_eq_of_lt hm]

theorem and_not_mask_zero {m : Nat} (hm : m < 2 ^ 20) : m &&& not64 INDEX_MASK = 0 := by
  apply Nat.zero_of_testBit_eq_false
  intro i
  rw [Nat.testBit_and, not64, MASK_BITS, INDEX_MASK_eq, Nat.testBit_xor,
    Nat.testBit_two_pow_sub_one, Nat.testBit_two_pow_sub_one]
  rcases Nat.lt_or_ge i 20 with hi | hi
  · simp [hi, (show i < 64 by omega)]
  · simp [testBit_above 20 i hm hi]

theorem glui_small {len m : Nat} (hm : m < 2 ^ 20) : get_last_used_index len m = m := by
  have hsize : word_len TOTAL_BITS m ≤ 20 := word_len_le hm (by rw [TOTAL_BITS]; omega)
  unfold get_last_used_index leading_zeros
  rw [and_mask_small hm]
  have hoff : (TOTAL_BITS - INDEX_BITS) - (TOTAL_BITS - word_len TOTAL_BITS m) = 0 := by
    simp only [TOTAL_BITS, INDEX_BITS] at hsize ⊢
    omega
  rw [hoff, if_pos (Nat.zero_le m), Nat.sub_zero]

theorem or_and_mask {a : Nat} (ha : a < 2 ^ 20) :
    ((1 <<< INDEX_BITS) ||| a) &&& INDEX_MASK = a := by
  apply Nat.eq_of_testBit_eq
  intro i
  rw [INDEX_BITS, one_shiftLeft_eq, INDEX_MASK_eq, Nat.testBit_and, Nat.testBit_or,
    Nat.testBit_two_pow, Nat.testBit_two_pow_sub_one]
  rcases Nat.lt_or_ge i 20 with hi | hi
  · simp [hi, (show ¬(20 = i) by omega)]
  · simp [(show ¬i < 20 by omega), testBit_above 20 i ha hi]

theorem or_xor_bit {a : Nat} (ha : a < 2 ^ 20) :
    ((1 <<< INDEX_BITS) ||| a) ^^^ (1 <<< INDEX_BITS) = a := by
  apply Nat.eq_of_testBit_eq
  intro i
  rw [INDEX_BITS, one_shiftLeft_eq, Nat.testBit_xor, Nat.testBit_or, Nat.testBit_two_pow]
  by_cases hi : 20 = i
  · subst hi
    simp [testBit_above 20 20 ha (Nat.le_refl _)]
  · simp [hi]

theorem or_bit_ne_zero (a : Nat) :
    ((1 <<< INDEX_BITS) ||| a) &&& (1 <<< INDEX_BITS) ≠ 0 := by
  rw [INDEX_BITS, one_shiftLeft_eq, Ne, and_two_pow_eq_zero_iff, Nat.testBit_or,
    Nat.testBit_two_pow]
  simp

theorem not_too_many {m : Nat} (hm : m < 2 ^ 20) : ¬(1 <<< (TOTAL_BITS - 1) ≤ m) := by
  rw [TOTAL_BITS, one_shiftLeft_eq]
  have h1 : (2 : Nat) ^ 20 ≤ 2 ^ (64 - 1) := Nat.pow_le_pow_right (by omega) (by omega)
  omega

/-- Evaluation of `cas_acquire` when `main` and `guard` are pure indices
below `2 ^ INDEX_BITS` (every sequentially reachable word). -/
theorem cas_acquire_pure {len m g : Nat} (hm : m < 2 ^ 20) (hg : g < 2 ^ 20)
    (bc : BoundsCheck) :
    cas_acquire len m g bc =
      (if (match bc with
           | BoundsCheck.OldValue => m
           | BoundsCheck.NewValue => ((1 <<< INDEX_BITS) ||| advance len m) &&& INDEX_MASK) = g
       then some none
       else some (some (m, (1 <<< INDEX_BITS) ||| advance len m))) := by
  simp only [cas_acquire]
  rw [if_neg (not_too_many hm), glui_small hg, and_not_mask_zero hm, and_mask_small hm]
  have hnext : ((0 <<< 1) % 2 ^ TOTAL_BITS ||| (1 <<< INDEX_BITS)) = 1 <<< INDEX_BITS := by
    rw [Nat.zero_shiftLeft, Nat.zero_mod, Nat.zero_or]
  rw [hnext]
  have hadv : (if m + 1 ≠ len then (1 <<< INDEX_BITS) ||| (m + 1) else 1 <<< INDEX_BITS) =
      (1 <<< INDEX_BITS) ||| advance len m := by
    unfold advance
    by_cases hml : m + 1 = len
    · rw [if_neg (show ¬(m + 1 ≠ len) from not_not_intro hml), if_pos hml, Nat.or_zero]
    · rw [if_pos (show m + 1 ≠ len from hml), if_neg hml]
  rw [hadv]

/-- Releasing the reservation just acquired at pure index `m` (current word
`(1 << INDEX_BITS) | advance m`): the offset is 1, the freshly set bit
`INDEX_BITS` is flipped, leaving the pure advanced index. -/
theorem cas_release_acquired {len m : Nat} (ha : advance len m < 2 ^ 20) :
    cas_release len ((1 <<< INDEX_BITS) ||| advance len m) m = some (advance len m) := by
  simp only [cas_release]
  rw [or_and_mask ha]
  have hoff : (if advance len m > m then advance len m - m
      else advance len m + len - m) = 1 := by
    by_cases hml : m + 1 = len
    · have ha0 : advance len m = 0 := by unfold advance; rw [if_pos hml]
      rw [ha0, if_neg (by omega : ¬0 > m)]
      omega
    · have ha1 : advance len m = m + 1 := by unfold advance; rw [if_neg hml]
      rw [ha1, if_pos (by omega : m + 1 > m)]
      omega
  rw [hoff]
  have hassert : 1 + INDEX_BITS ≤ TOTAL_BITS := by rw [INDEX_BITS, TOTAL_BITS]; omega
  rw [if_pos hassert]
  have hbit : INDEX_BITS - 1 + 1 = INDEX_BITS := by rw [INDEX_BITS]
  rw [hbit, if_pos (or_bit_ne_zero _), or_xor_bit ha]

/-- Releasing after the index field overflowed into the freshly set mask
bit (`advance len m = 2 ^ 20`, only possible when `len > 2 ^ 20`): one of
the two release assertions fails. -/
theorem cas_release_overflow {len m : Nat} (hmlen : m < len)
    (ha : advance len m = 2 ^ 20) :
    cas_release len ((1 <<< INDEX_BITS) ||| advance len m) m = none := by
  have hm1 : m + 1 = 2 ^ 20 ∧ m + 1 ≠ len := by
    by_cases hml : m + 1 = len
    · have ha0 : advance len m = 0 := by unfold advance; rw [if_pos hml]
      rw [ha0] at ha
      exact absurd ha (by omega)
    · have ha1 : advance len m = m + 1 := by unfold advance; rw [if_neg hml]
      rw [ha1] at ha
      exact ⟨ha, hml⟩
  have hm_val : m = 2 ^ 20 - 1 := by omega
  have hlen : 2 ^ 20 < len := by omega
  have hcur : (1 <<< INDEX_BITS) ||| advance len m = 2 ^ 20 := by
    rw [ha, INDEX_BITS, one_shiftLeft_eq, Nat.or_self]
  simp only [cas_release]
  rw [hcur, and_mask_eq_mod, Nat.mod_self]
  rw [if_neg (by omega : ¬0 > m)]
  by_cases hassert : 0 + len - m + INDEX_BITS ≤ TOTAL_BITS
  · rw [if_pos hassert]
    rw [INDEX_BITS, TOTAL_BITS] at hassert
    have hbitpos : INDEX_BITS - 1 + (0 + len - m) = 19 + (len - m) := by
      rw [INDEX_BITS]; omega
    rw [hbitpos, if_neg]
    simp only [Ne, not_not]
    rw [one_shiftLeft_eq, and_two_pow_eq_zero_iff, Nat.testBit_two_pow]
    have : ¬(20 = 19 + (len - m)) := by omega
    simp [this]
  · rw [if_neg hassert]

end MaskedBits

/-- Ring-layout invariant for sequentially reachable `MaskedQueue` states:
both words are pure indices (no in-flight mask bits), below `2 ^ INDEX_BITS`. -/
structure Rep (C t : Nat) (xs : List T) (q : MaskedQueue T) : Prop where
  ht : t < C + 1
  ht20 : t < 2 ^ 20
  hhd20 : (t + xs.length) % (C + 1) < 2 ^ 20
  hxs : xs.length ≤ C
  hhead : q.head = (t + xs.length) % (C + 1)
  htail : q.tail = t
  hdata : q.data = ringData (C + 1) t xs

theorem masked_rep_data_length {C t : Nat} {xs : List T} {q : MaskedQueue T} (h : Rep C t xs q) :
    q.data.length = C + 1 := by
  rw [h.hdata, length_ringData]

theorem masked_new_rep {C : Nat} (hpow : is_power_of_two C = true) :
    new? (T := T) C =
        some { head := 0, tail := 0, data := List.replicate (C + 1) none } ∧
      Rep C 0 ([] : List T) { head := 0, tail := 0, data := List.replicate (C + 1) none } := by
  constructor
  · rw [new?, if_pos hpow]
  · constructor
    · omega
    · exact Nat.pos_pow_of_pos 20 (by omega)
    · simp
    · simp
    · simp
    · rfl
    · simp [ringData_nil]

/-- A push whose post-advance index field equals the tail index is refused
(this covers both the genuine full queue and the `advance = 2 ^ 20`
field-overflow aliasing to index 0 with tail 0). -/
theorem push_refuse {C t : Nat} {xs : List T} {q : MaskedQueue T} (h : Rep C t xs q)
    (v : T)
    (hcheck : ((1 <<< INDEX_BITS) ||| advance (C + 1) ((t + xs.length) % (C + 1))) &&&
      INDEX_MASK = t) :
    push q v = some (Except.error v, q) := by
  have hlen := masked_rep_data_length h
  simp only [push, hlen, h.hhead, h.htail]
  rw [cas_acquire_pure h.hhd20 h.ht20]
  dsimp only
  rw [if_pos hcheck]

theorem masked_push_ok {C t : Nat} {xs : List T} {q : MaskedQueue T} (h : Rep C t xs q)
    (v : T)
    (ha20 : advance (C + 1) ((t + xs.length) % (C + 1)) < 2 ^ 20)
    (hne : advance (C + 1) ((t + xs.length) % (C + 1)) ≠ t) :
    ∃ q2, push q v = some (Except.ok (), q2) ∧ Rep C t (xs ++ [v]) q2 := by
  have hlen := masked_rep_data_length h
  have hroom : xs.length < C := by
    rcases Nat.lt_or_ge xs.length C with h1 | h1
    · exact h1
    · exfalso
      apply hne
      have hxsC : xs.length = C := by
        have := h.hxs
        omega
      rw [hxsC, advance_ring, ring_full_wrap h.ht]
  have hadv : advance (C + 1) ((t + xs.length) % (C + 1)) =
      (t + (xs.length + 1)) % (C + 1) := advance_ring
  refine ⟨{ head := advance (C + 1) ((t + xs.length) % (C + 1)), tail := t
            data := q.data.set ((t + xs.length) % (C + 1)) (some v) }, ?_, ?_⟩
  · simp only [push, hlen, h.hhead, h.htail]
    rw [cas_acquire_pure h.hhd20 h.ht20]
    dsimp only
    rw [if_neg (by rw [or_and_mask ha20]; exact hne)]
    dsimp only
    rw [cas_release_acquired ha20]
  · constructor
    · exact h.ht
    · exact h.ht20
    · simp only [List.length_append, List.length_singleton]
      rw [← hadv]
      exact ha20
    · simp only [List.length_append, List.length_singleton]
      omega
    · simp only [List.length_append, List.length_singleton]
      exact hadv
    · rfl
    · rw [h.hdata, ringData_set_push xs v h.ht (by omega)]

theorem push_overflow {C t : Nat} {xs : List T} {q : MaskedQueue T} (h : Rep C t xs q)
    (v : T)
    (ha : advance (C + 1) ((t + xs.length) % (C + 1)) = 2 ^ 20)
    (ht0 : t ≠ 0) :
    push q v = none := by
  have hlen := masked_rep_data_length h
  have hcheck : ((1 <<< INDEX_BITS) ||| advance (C + 1) ((t + xs.length) % (C + 1))) &&&
      INDEX_MASK = 0 := by
    rw [ha, INDEX_BITS, one_shiftLeft_eq, Nat.or_self, and_mask_eq_mod, Nat.mod_self]
  simp only [push, hlen, h.hhead, h.htail]
  rw [cas_acquire_pure h.hhd20 h.ht20]
  dsimp only
  rw [if_neg (by rw [hcheck]; exact fun hc => ht0 hc.symm)]
  dsimp only
  rw [cas_release_overflow (Nat.mod_lt _ (by omega)) ha]

theorem masked_pop_none {C t : Nat} {q : MaskedQueue T} (h : Rep C t ([] : List T) q) :
    pop q = some (none, q) := by
  have hlen := masked_rep_data_length h
  simp only [pop, hlen, h.hhead, h.htail]
  rw [cas_acquire_pure h.ht20 h.hhd20]
  dsimp only
  rw [if_pos (by simp [Nat.mod_eq_of_lt h.ht])]

theorem pop_ok {C t : Nat} {x : T} {rest : List T} {q : MaskedQueue T}
    (h : Rep C t (x :: rest) q)
    (ha20 : advance (C + 1) t < 2 ^ 20) :
    ∃ q2, pop q = some (some x, q2) ∧ Rep C (advance (C + 1) t) rest q2 := by
  have hlen := masked_rep_data_length h
  have hxs := h.hxs
  have ht := h.ht
  have hne : t ≠ (t + (x :: rest).length) % (C + 1) := by
    intro hcontra
    apply ring_ne_of_pos h.ht (k := (x :: rest).length)
    · simp
    · simp only [List.length_cons] at hxs ⊢
      omega
    · exact hcontra.symm
  have hoff_t : (t + (C + 1) - t) % (C + 1) = 0 := by
    have he : t + (C + 1) - t = C + 1 := by omega
    rw [he, Nat.mod_self]
  have hval : q.data.getD t none = some x := by
    rw [h.hdata, List.getD_eq_getElem?_getD, ringData_getElem? _ h.ht, hoff_t]
    simp
  have hdata2 := ringData_set_pop x rest h.ht
    (show rest.length < C + 1 by simp only [List.length_cons] at hxs; omega)
  have harr : (advance (C + 1) t + rest.length) % (C + 1) =
      (t + (x :: rest).length) % (C + 1) := by
    rw [advance_eq_mod h.ht, Nat.mod_add_mod, List.length_cons]
    congr 1
    omega
  refine ⟨{ head := (t + (x :: rest).length) % (C + 1), tail := advance (C + 1) t
            data := q.data.set t none }, ?_, ?_⟩
  · simp only [pop, hlen, h.hhead, h.htail]
    rw [cas_acquire_pure h.ht20 h.hhd20]
    dsimp only
    rw [if_neg hne]
    dsimp only
    rw [cas_release_acquired ha20]
    dsimp only
    rw [hval]
  · constructor
    · exact advance_lt h.ht
    · exact ha20
    · rw [harr]
      exact h.hhd20
    · simp only [List.length_cons] at hxs
      omega
    · exact harr.symm
    · rfl
    · rw [h.hdata, hdata2]

theorem pop_overflow {C t : Nat} {x : T} {rest : List T} {q : MaskedQueue T}
    (h : Rep C t (x :: rest) q)
    (ha : advance (C + 1) t = 2 ^ 20) :
    pop q = none := by
  have hlen := masked_rep_data_length h
  have hxs := h.hxs
  have hne : t ≠ (t + (x :: rest).length) % (C + 1) := by
    intro hcontra
    apply ring_ne_of_pos h.ht (k := (x :: rest).length)
    · simp
    · simp only [List.length_cons] at hxs ⊢
      omega
    · exact hcontra.symm
  simp only [pop, hlen, h.hhead, h.htail]
  rw [cas_acquire_pure h.ht20 h.hhd20]
  dsimp only
  rw [if_neg hne]
  dsimp only
  rw [cas_release_overflow h.ht ha]
  cases q.data.getD t none <;> rfl

end Masked

namespace Other

/-- `INDEX_BITS = 20` of `src/other.rs`. -/
def INDEX_BITS : Nat := 20

/-- `INDEX_MASK = (1 << INDEX_BITS) - 1` of `src/other.rs`. -/
def INDEX_MASK : Nat := (1 <<< INDEX_BITS) - 1

/-- `TOTAL_BITS = mem::size_of::<usize>() * 8 = 64` of `src/other.rs`. -/
def TOTAL_BITS : Nat := 64

/-- Model of `usize::leading_zeros`, as in the `Masked` embedding. -/
def leading_zeros (x : Nat) : Nat := TOTAL_BITS - word_len TOTAL_BITS x

/-- `OtherQueue` of `src/other.rs`. -/
structure OtherQueue (T : Type) where
  head : Nat
  tail : Nat
  data : List (Option T)
deriving Repr, DecidableEq

/-- The `BoundsCheck` enum of `src/other.rs`. -/
inductive BoundsCheck where
  | OldValue
  | NewValue
deriving Repr, DecidableEq

/-- `OtherQueue::get_last_used_index` (textually the `Masked` function). -/
def get_last_used_index (len rich_index : Nat) : Nat :=
  let index := rich_index &&& INDEX_MASK
  let offset := (TOTAL_BITS - INDEX_BITS) - leading_zeros rich_index
  if index ≥ offset then index - offset else index + len - offset

/-- `OtherQueue::cas_acquire`, sequential semantics as for `Masked`. -/
def cas_acquire (len main guard : Nat) (bounds_check : BoundsCheck) :
    Option (Option (Nat × Nat)) :=
  let last_used_index := get_last_used_index len guard
  if 1 <<< (TOTAL_BITS - 1) ≤ main then
    none
  else
    let next0 := ((main &&& not64 INDEX_MASK) <<< 1) % 2 ^ TOTAL_BITS ||| (1 <<< INDEX_BITS)
    let next := if (main &&& INDEX_MASK) + 1 ≠ len then
        next0 ||| ((main &&& INDEX_MASK) + 1)
      else
        next0
    let check_index := match bounds_check with
      | BoundsCheck.OldValue => main &&& INDEX_MASK
      | BoundsCheck.NewValue => next &&& INDEX_MASK
    if check_index = last_used_index then
      some none
    else
      some (some (main &&& INDEX_MASK, next))

/-- `OtherQueue::cas_release`, sequential semantics as for `Masked`. -/
def cas_release (len current done_index : Nat) : Option Nat :=
  let cur_index := current &&& INDEX_MASK
  let offset := if cur_index > done_index then cur_index - done_index
    else cur_index + len - done_index
  if offset + INDEX_BITS ≤ TOTAL_BITS then
    let bit := 1 <<< (INDEX_BITS - 1 + offset)
    if current &&& bit ≠ 0 then
      some (current ^^^ bit)
    else
      none
  else
    none

/-- `OtherQueue::new` behind its `assert!(capacity.is_power_of_two())`. -/
def new? (capacity : Nat) : Option (OtherQueue T) :=
  if is_power_of_two capacity then
    some { head := 0, tail := 0, data := List.replicate (capacity + 1) none }
  else
    none

/-- `OtherQueue::push`, sequential semantics. -/
def push (q : OtherQueue T) (value : T) : Option (Except T Unit × OtherQueue T) :=
  match cas_acquire q.data.length q.head q.tail BoundsCheck.NewValue with
  | none => none
  | some none => some (Except.error value, q)
  | some (some (index, next)) =>
    match cas_release q.data.length next index with
    | none => none
    | some released =>
      some (Except.ok (), { q with head := released, data := q.data.set index (some value) })

/-- `OtherQueue::pop`, sequential semantics. -/
def pop (q : OtherQueue T) : Option (Option T × OtherQueue T) :=
  match cas_acquire q.data.length q.tail q.head BoundsCheck.OldValue with
  | none => none
  | some none => some (none, q)
  | some (some (index, next)) =>
    match q.data.getD index none with
    | none => none
    | some x =>
      match cas_release q.data.length next index with
      | none => none
      | some released =>
        some (some x, { q with tail := released, data := q.data.set index none })

/-- Slots visited by `Drop for OtherQueue` after its assertions. -/
def dropSlots (q : OtherQueue T) : List Nat :=
  dropLoop q.data.length q.data.length q.tail q.head

/-- `Drop for OtherQueue`: the same assertions and walk as `Masked`. -/
def dropReads (q : OtherQueue T) : Option (List (Option T)) :=
  if q.head &&& not64 INDEX_MASK ≠ 0 then
    none
  else if q.tail &&& not64 INDEX_MASK ≠ 0 then
    none
  else
    some ((dropSlots q).map (fun i => q.data.getD i none))

/-- The state translation identifying the two structurally equal queues. -/
def toMasked (q : OtherQueue T) : Masked.MaskedQueue T :=
  { head := q.head, tail := q.tail, data := q.data }

/-- The enum translation. -/
def bcToMasked : BoundsCheck → Masked.BoundsCheck
  | BoundsCheck.OldValue => Masked.BoundsCheck.OldValue
  | BoundsCheck.NewValue => Masked.BoundsCheck.NewValue

end Other

section GenericRuns

variable {Q T : Type}

theorem pushAll_append (push : Q → T → Option (Except T Unit × Q)) (q : Q) (as bs : List T) :
    pushAll push q (as ++ bs) =
      match pushAll push q as with
      | none => none
      | some (rs, q2) =>
        match pushAll push q2 bs with
        | none => none
        | some (rs2, q3) => some (rs ++ rs2, q3) := by
  induction as generalizing q with
  | nil =>
    simp only [List.nil_append, pushAll]
    cases pushAll push q bs with
    | none => rfl
    | some rsq =>
      obtain ⟨rs2, q3⟩ := rsq
      simp
  | cons a as ih =>
    rw [List.cons_append]
    simp only [pushAll]
    cases push q a with
    | none => rfl
    | some rq =>
      obtain ⟨r, q2⟩ := rq
      dsimp only
      rw [ih q2]
      cases pushAll push q2 as with
      | none => rfl
      | some rsq =>
        obtain ⟨rs, q3⟩ := rsq
        dsimp only
        cases pushAll push q3 bs with
        | none => rfl
        | some rsq2 =>
          obtain ⟨rs2, q4⟩ := rsq2
          simp

/-- Pushing a list of values one below the refusal bound `B` succeeds
throughout and appends them, for any queue with a ring representation
whose single-push lemma is supplied as `hOk`. -/
theorem genPushAll (push : Q → T → Option (Except T Unit × Q))
    (Rep : List T → Q → Prop) (B : Nat)
    (hOk : ∀ xs q v, Rep xs q → xs.length < B →
      ∃ q2, push q v = some (Except.ok (), q2) ∧ Rep (xs ++ [v]) q2) :
    ∀ (vs xs : List T) (q : Q), Rep xs q → xs.length + vs.length ≤ B →
      ∃ q2, pushAll push q vs = some (List.replicate vs.length (Except.ok ()), q2) ∧
        Rep (xs ++ vs) q2 := by
  intro vs
  induction vs with
  | nil =>
    intro xs q hrep _
    exact ⟨q, rfl, by simpa using hrep⟩
  | cons v vs ih =>
    intro xs q hrep hle
    obtain ⟨q2, hpush, hrep2⟩ := hOk xs q v hrep (by simp at hle; omega)
    obtain ⟨q3, hall, hrep3⟩ := ih (xs ++ [v]) q2 hrep2 (by simp at hle ⊢; omega)
    refine ⟨q3, ?_, by simpa using hrep3⟩
    simp only [pushAll, hpush, hall, List.length_cons, List.replicate_succ]

/-- Popping a represented queue dry returns its content in order. -/
theorem genPopAll (pop : Q → Option (Option T × Q))
    (Rep : Nat → List T → Q → Prop) (adv : Nat → Nat)
    (hPop : ∀ t x rest q, Rep t (x :: rest) q →
      ∃ q2, pop q = some (some x, q2) ∧ Rep (adv t) rest q2) :
    ∀ (xs : List T) (t : Nat) (q : Q), Rep t xs q →
      ∃ t2 q2, popAll pop q xs.length = some (xs.map some, q2) ∧ Rep t2 [] q2 := by
  intro xs
  induction xs with
  | nil =>
    intro t q hrep
    exact ⟨t, q, rfl, hrep⟩
  | cons x rest ih =>
    intro t q hrep
    obtain ⟨q2, hpop, hrep2⟩ := hPop t x rest q hrep
    obtain ⟨t3, q3, hall, hrep3⟩ := ih (adv t) q2 hrep2
    refine ⟨t3, q3, ?_, hrep3⟩
    simp only [List.length_cons, popAll, hpop, hall, List.map_cons]

end GenericRuns

section DropCharacterization

variable {T : Type}

/-- Shared computation: the drop walk of a represented ring reads exactly
the content, visiting pairwise distinct slots. -/
theorem dropWalk_spec {C t : Nat} (xs : List T) (ht : t < C + 1) (hxs : xs.length ≤ C) :
    (dropLoop (C + 1) (C + 1) t ((t + xs.length) % (C + 1))).map
        (fun i => (ringData (C + 1) t xs).getD i none) = xs.map some ∧
      (dropLoop (C + 1) (C + 1) t ((t + xs.length) % (C + 1))).Nodup := by
  have hseg := @dropLoop_eq_seg (C + 1) xs.length t (C + 1) ht (by omega) (by omega)
  rw [hseg]
  constructor
  · apply List.ext_getElem?
    intro i
    rcases Nat.lt_or_ge i xs.length with hi | hi
    · have h2 : (ringData (C + 1) t xs)[(t + i) % (C + 1)]?.getD none = some xs[i] := by
        rw [ringData_getElem? xs (Nat.mod_lt _ (by omega)),
          ring_roundtrip ht (by omega), Option.getD_some, List.getElem?_eq_getElem hi]
      simp [List.getElem?_map, List.getElem?_range hi, List.getElem?_eq_getElem hi,
        List.getD_eq_getElem?_getD, h2]
    · rw [List.getElem?_eq_none (by simp; omega), List.getElem?_eq_none (by simp; omega)]
  · apply List.Nodup.map_on _ (List.nodup_range _)
    intro i hi j hj hij
    rw [List.mem_range] at hi hj
    exact ring_add_inj ht (by omega) (by omega) hij

theorem axel_drop_spec {C t : Nat} {xs : List T} {q : Axel.AxelQueue T}
    (h : Axel.Rep C t xs q) :
    Axel.dropReads q = xs.map some ∧ (Axel.dropSlots q).Nodup ∧
      xs.length = q.data.countP (fun o => o.isSome) := by
  have hlen := Axel.axel_rep_data_length h
  have hs := Axel.axel_rep_unpack h
  have hwalk := dropWalk_spec xs h.ht h.hxs
  have hslots : Axel.dropSlots q =
      dropLoop (C + 1) (C + 1) t ((t + xs.length) % (C + 1)) := by
    simp only [Axel.dropSlots, hlen, hs]
  refine ⟨?_, ?_, ?_⟩
  · simp only [Axel.dropReads, hslots, h.hdata]
    exact hwalk.1
  · rw [hslots]
    exact hwalk.2
  · rw [h.hdata, ringData_countP xs h.ht (Nat.le_succ_of_le h.hxs)]

theorem double_drop_spec {C t : Nat} {xs : List T} {q : Double.DoubleQueue T}
    (h : Double.Rep C t xs q) :
    Double.dropReads q = some (xs.map some) ∧ (Double.dropSlots q).Nodup ∧
      xs.length = q.data.countP (fun o => o.isSome) := by
  have hlen := Double.double_rep_data_length h
  have hs := Double.double_rep_unpack h
  have hwalk := dropWalk_spec xs h.ht h.hxs
  have hslots : Double.dropSlots q =
      dropLoop (C + 1) (C + 1) t ((t + xs.length) % (C + 1)) := by
    simp only [Double.dropSlots, hlen, hs]
  refine ⟨?_, ?_, ?_⟩
  · simp only [Double.dropReads, h.hnarrow]
    rw [if_pos trivial]
    simp only [hslots, h.hdata]
    rw [hwalk.1]
  · rw [hslots]
    exact hwalk.2
  · rw [h.hdata, ringData_countP xs h.ht (Nat.le_succ_of_le h.hxs)]

theorem masked_drop_spec {C t : Nat} {xs : List T} {q : Masked.MaskedQueue T}
    (h : Masked.Rep C t xs q) :
    Masked.dropReads q = some (xs.map some) ∧ (Masked.dropSlots q).Nodup ∧
      xs.length = q.data.countP (fun o => o.isSome) := by
  have hlen := Masked.masked_rep_data_length h
  have hwalk := dropWalk_spec xs h.ht h.hxs
  have hslots : Masked.dropSlots q =
      dropLoop (C + 1) (C + 1) t ((t + xs.length) % (C + 1)) := by
    simp only [Masked.dropSlots, hlen, h.hhead, h.htail]
  refine ⟨?_, ?_, ?_⟩
  · simp only [Masked.dropReads, h.hhead, h.htail]
    rw [if_neg (by simp [Masked.and_not_mask_zero h.hhd20]),
      if_neg (by simp [Masked.and_not_mask_zero h.ht20])]
    simp only [hslots, h.hdata, h.hhead, h.htail]
    rw [hwalk.1]
  · rw [hslots]
    exact hwalk.2
  · rw [h.hdata, ringData_countP xs h.ht (Nat.le_succ_of_le h.hxs)]

end DropCharacterization

section RunInvariants

variable {T : Type}

theorem axel_run_rep :
    ∀ (ops : List (Op T)) (C t : Nat) (xs : List T) (q qf : Axel.AxelQueue T),
      Axel.Rep C t xs q → runOps Axel.push Axel.pop q ops = some qf →
      ∃ t2 xs2, Axel.Rep C t2 xs2 qf := by
  intro ops
  induction ops with
  | nil =>
    intro C t xs q qf hrep hrun
    simp only [runOps] at hrun
    cases hrun
    exact ⟨t, xs, hrep⟩
  | cons op rest ih =>
    intro C t xs q qf hrep hrun
    cases op with
    | push v =>
      rcases Nat.lt_or_ge xs.length C with hlt | hge
      · obtain ⟨q2, hpush, hrep2⟩ := Axel.axel_push_ok hrep v hlt
        simp only [runOps, hpush] at hrun
        exact ih C t (xs ++ [v]) q2 qf hrep2 hrun
      · have hfull : xs.length = C := by
          have := hrep.hxs
          omega
        simp only [runOps, Axel.axel_push_full hrep v hfull] at hrun
        exact ih C t xs q qf hrep hrun
    | pop =>
      cases xs with
      | nil =>
        simp only [runOps, Axel.axel_pop_none hrep] at hrun
        exact ih C t [] q qf hrep hrun
      | cons x rest2 =>
        obtain ⟨q2, hpop, hrep2⟩ := Axel.axel_pop_some hrep
        simp only [runOps, hpop] at hrun
        exact ih C (advance (C + 1) t) rest2 q2 qf hrep2 hrun

theorem double_run_rep :
    ∀ (ops : List (Op T)) (C t : Nat) (xs : List T) (q qf : Double.DoubleQueue T),
      Double.Rep C t xs q → runOps Double.push Double.pop q ops = some qf →
      ∃ t2 xs2, Double.Rep C t2 xs2 qf := by
  intro ops
  induction ops with
  | nil =>
    intro C t xs q qf hrep hrun
    simp only [runOps] at hrun
    cases hrun
    exact ⟨t, xs, hrep⟩
  | cons op rest ih =>
    intro C t xs q qf hrep hrun
    cases op with
    | push v =>
      rcases Nat.lt_or_ge xs.length C with hlt | hge
      · obtain ⟨q2, hpush, hrep2⟩ := Double.double_push_ok hrep v hlt
        simp only [runOps, hpush] at hrun
        exact ih C t (xs ++ [v]) q2 qf hrep2 hrun
      · have hfull : xs.length = C := by
          have := hrep.hxs
          omega
        simp only [runOps, Double.double_push_full hrep v hfull] at hrun
        exact ih C t xs q qf hrep hrun
    | pop =>
      cases xs with
      | nil =>
        simp only [runOps, Double.double_pop_none hrep] at hrun
        exact ih C t [] q qf hrep hrun
      | cons x rest2 =>
        obtain ⟨q2, hpop, hrep2⟩ := Double.double_pop_some hrep
        simp only [runOps, hpop] at hrun
        exact ih C (advance (C + 1) t) rest2 q2 qf hrep2 hrun

theorem masked_run_rep :
    ∀ (ops : List (Op T)) (C t : Nat) (xs : List T) (q qf : Masked.MaskedQueue T),
      Masked.Rep C t xs q → runOps Masked.push Masked.pop q ops = some qf →
      ∃ t2 xs2, Masked.Rep C t2 xs2 qf := by
  intro ops
  induction ops with
  | nil =>
    intro C t xs q qf hrep hrun
    simp only [runOps] at hrun
    cases hrun
    exact ⟨t, xs, hrep⟩
  | cons op rest ih =>
    intro C t xs q qf hrep hrun
    cases op with
    | push v =>
      have hhd := hrep.hhd20
      have ha_le : advance (C + 1) ((t + xs.length) % (C + 1)) ≤ 2 ^ 20 := by
        unfold advance
        split <;> omega
      rcases Nat.lt_or_ge (advance (C + 1) ((t + xs.length) % (C + 1))) (2 ^ 20)
        with ha | ha
      · by_cases hat : advance (C + 1) ((t + xs.length) % (C + 1)) = t
        · have hcheck : ((1 <<< Masked.INDEX_BITS) |||
              advance (C + 1) ((t + xs.length) % (C + 1))) &&& Masked.INDEX_MASK = t := by
            rw [Masked.or_and_mask ha, hat]
          simp only [runOps, Masked.push_refuse hrep v hcheck] at hrun
          exact ih C t xs q qf hrep hrun
        · obtain ⟨q2, hpush, hrep2⟩ := Masked.masked_push_ok hrep v ha hat
          simp only [runOps, hpush] at hrun
          exact ih C t (xs ++ [v]) q2 qf hrep2 hrun
      · have ha2 : advance (C + 1) ((t + xs.length) % (C + 1)) = 2 ^ 20 := by omega
        by_cases ht0 : t = 0
        · have h0 : ((1 <<< Masked.INDEX_BITS) ||| (2 ^ 20 : Nat)) &&&
              Masked.INDEX_MASK = 0 := by
            rw [Masked.INDEX_BITS, one_shiftLeft_eq, Nat.or_self,
              Masked.and_mask_eq_mod, Nat.mod_self]
          have hcheck : ((1 <<< Masked.INDEX_BITS) |||
              advance (C + 1) ((t + xs.length) % (C + 1))) &&& Masked.INDEX_MASK = t := by
            rw [ha2, h0, ht0]
          simp only [runOps, Masked.push_refuse hrep v hcheck] at hrun
          exact ih C t xs q qf hrep hrun
        · simp only [runOps, Masked.push_overflow hrep v ha2 ht0] at hrun
          exact absurd hrun (by simp)
    | pop =>
      cases xs with
      | nil =>
        simp only [runOps, Masked.masked_pop_none hrep] at hrun
        exact ih C t [] q qf hrep hrun
      | cons x rest2 =>
        have ha_le : advance (C + 1) t ≤ 2 ^ 20 := by
          have := hrep.ht20
          unfold advance
          split <;> omega
        rcases Nat.lt_or_ge (advance (C + 1) t) (2 ^ 20) with ha | ha
        · obtain ⟨q2, hpop, hrep2⟩ := Masked.pop_ok hrep ha
          simp only [runOps, hpop] at hrun
          exact ih C (advance (C + 1) t) rest2 q2 qf hrep2 hrun
        · have ha2 : advance (C + 1) t = 2 ^ 20 := by omega
          simp only [runOps, Masked.pop_overflow hrep ha2] at hrun
          exact absurd hrun (by simp)

end RunInvariants

section OtherMaskedBridge

variable {T : Type}

theorem other_push_commute (q : Other.OtherQueue T) (v : T) :
    (Other.push q v).map (Prod.map id Other.toMasked) =
      Masked.push (Other.toMasked q) v := by
  obtain ⟨h, t, d⟩ := q
  show (Other.push ⟨h, t, d⟩ v).map (Prod.map id Other.toMasked) = Masked.push ⟨h, t, d⟩ v
  simp only [Other.push, Masked.push]
  have hacq : Other.cas_acquire d.length h t Other.BoundsCheck.NewValue =
      Masked.cas_acquire d.length h t Masked.BoundsCheck.NewValue := rfl
  rw [hacq]
  cases Masked.cas_acquire d.length h t Masked.BoundsCheck.NewValue with
  | none => rfl
  | some o =>
    cases o with
    | none => rfl
    | some p =>
      obtain ⟨i, n⟩ := p
      dsimp only
      have hrel : Other.cas_release d.length n i = Masked.cas_release d.length n i := rfl
      rw [hrel]
      cases Masked.cas_release d.length n i with
      | none => rfl
      | some rel => rfl

theorem other_pop_commute (q : Other.OtherQueue T) :
    (Other.pop q).map (Prod.map id Other.toMasked) = Masked.pop (Other.toMasked q) := by
  obtain ⟨h, t, d⟩ := q
  show (Other.pop ⟨h, t, d⟩).map (Prod.map id Other.toMasked) = Masked.pop ⟨h, t, d⟩
  simp only [Other.pop, Masked.pop]
  have hacq : Other.cas_acquire d.length t h Other.BoundsCheck.OldValue =
      Masked.cas_acquire d.length t h Masked.BoundsCheck.OldValue := rfl
  rw [hacq]
  cases Masked.cas_acquire d.length t h Masked.BoundsCheck.OldValue with
  | none => rfl
  | some o =>
    cases o with
    | none => rfl
    | some p =>
      obtain ⟨i, n⟩ := p
      dsimp only
      cases d.getD i none with
      | none => rfl
      | some x =>
        dsimp only
        have hrel : Other.cas_release d.length n i = Masked.cas_release d.length n i := rfl
        rw [hrel]
        cases Masked.cas_release d.length n i with
        | none => rfl
        | some rel => rfl

theorem other_runOps_commute (ops : List (Op T)) :
    ∀ q : Other.OtherQueue T,
      (runOps Other.push Other.pop q ops).map Other.toMasked =
        runOps Masked.push Masked.pop (Other.toMasked q) ops := by
  induction ops with
  | nil => intro q; rfl
  | cons op rest ih =>
    intro q
    cases op with
    | push v =>
      simp only [runOps]
      have hp := other_push_commute q v
      cases hop : Other.push q v with
      | none =>
        rw [hop] at hp
        rw [← hp]
        rfl
      | some rq =>
        obtain ⟨r, q2⟩ := rq
        rw [hop] at hp
        rw [← hp]
        dsimp only [Prod.map]
        exact ih q2
    | pop =>
      simp only [runOps]
      have hp := other_pop_commute q
      cases hop : Other.pop q with
      | none =>
        rw [hop] at hp
        rw [← hp]
        rfl
      | some rq =>
        obtain ⟨r, q2⟩ := rq
        rw [hop] at hp
        rw [← hp]
        dsimp only [Prod.map]
        exact ih q2

end OtherMaskedBridge

section PowerOfTwo

theorem is_power_of_two_iff (n : Nat) : is_power_of_two n = true ↔ ∃ k, n = 2 ^ k := by
  simp only [is_power_of_two, Bool.and_eq_true, bne_iff_ne, beq_iff_eq, Ne]
  constructor
  · rintro ⟨hne, hand⟩
    refine ⟨n.size - 1, ?_⟩
    have hn1 : 1 ≤ n := Nat.one_le_iff_ne_zero.2 hne
    have hsz : 0 < n.size := Nat.lt_size.2 (by simpa using hn1)
    have hub : n < 2 ^ n.size := Nat.lt_size_self n
    have hlb : 2 ^ (n.size - 1) ≤ n := Nat.lt_size.1 (by omega)
    by_contra hne2
    have hgt : 2 ^ (n.size - 1) < n := by omega
    have hub2 : n < 2 ^ (n.size - 1) * 2 := by
      have hpow : 2 ^ n.size = 2 ^ (n.size - 1) * 2 := by
        rw [← Nat.pow_succ]
        congr 1
        omega
      omega
    have hb1 : n.testBit (n.size - 1) = true := by
      rw [Nat.testBit_to_div_mod]
      have hdiv : n / 2 ^ (n.size - 1) = 1 := Nat.div_eq_of_lt_le (by omega) (by omega)
      rw [hdiv]
      rfl
    have hb2 : (n - 1).testBit (n.size - 1) = true := by
      rw [Nat.testBit_to_div_mod]
      have hdiv : (n - 1) / 2 ^ (n.size - 1) = 1 := Nat.div_eq_of_lt_le (by omega) (by omega)
      rw [hdiv]
      rfl
    have hboth : (n &&& (n - 1)).testBit (n.size - 1) = true := by
      rw [Nat.testBit_and, hb1, hb2]
      rfl
    rw [hand, Nat.zero_testBit] at hboth
    exact absurd hboth (by simp)
  · rintro ⟨k, rfl⟩
    constructor
    · have := Nat.pos_pow_of_pos k (show 0 < 2 by omega)
      omega
    · rw [Nat.and_pow_two_sub_one_eq_mod, Nat.mod_self]

end PowerOfTwo

section Claims

/-- C2: `MaskedQueue::new(capacity)` (corrected).  Construction succeeds
exactly when `capacity` is a power of two — the source asserts only
`capacity.is_power_of_two()` and checks no upper bound — and in particular
`new(3)` fails at construction while `new(4)` succeeds. -/
theorem C2_amended :
    (∀ c : Nat, (Masked.new? (T := Nat) c).isSome = true ↔ is_power_of_two c = true) ∧
    (∀ c : Nat, is_power_of_two c = true ↔ ∃ k, c = 2 ^ k) ∧
    (Masked.new? (T := Nat) 3).isSome = false ∧
    (Masked.new? (T := Nat) 4).isSome = true := by
  refine ⟨?_, is_power_of_two_iff, ?_, ?_⟩
  · intro c
    simp only [Masked.new?]
    split
    · simp [*]
    · simp [*]
  · simp only [Masked.new?]
    rw [if_neg (by decide)]
    rfl
  · simp only [Masked.new?]
    rw [if_pos (by decide)]
    rfl

/-- C2 counterexample: the claim says construction fails for every capacity
that is not a power of two in `1 ≤ capacity ≤ 2 ^ INDEX_BITS - 1`, but
`new(2 ^ 20)` is accepted although `2 ^ 20 > 2 ^ INDEX_BITS - 1`. -/
theorem C2_counterexample :
    (Masked.new? (T := Nat) (2 ^ 20)).isSome = true ∧
      ¬(2 ^ 20 ≤ 2 ^ Masked.INDEX_BITS - 1) := by
  constructor
  · simp only [Masked.new?]
    rw [if_pos (by decide)]
    rfl
  · decide

/-- C3: `AxelQueue::new` bitmap size (corrected).  The source allocates
`1 + capacity / MASK_BITS` words, which is exactly
`ceil((capacity + 1) / word_bits)` — without the extra `+ 1` word the
claim adds. -/
theorem C3_amended : ∀ (T : Type) (C : Nat),
    (Axel.new (T := T) C).occupation.length = (C + 1 + (MASK_BITS - 1)) / MASK_BITS := by
  intro T C
  simp only [Axel.new, List.length_replicate, MASK_BITS]
  omega

/-- C3 counterexample: at capacity 1 the bitmap has 1 word, not
`ceil(2 / 64) + 1 = 2` words as the claim states. -/
theorem C3_counterexample :
    (Axel.new (T := Nat) 1).occupation.length = 1 ∧
      (1 + 1 + (MASK_BITS - 1)) / MASK_BITS + 1 = 2 ∧ (1 : Nat) ≠ 2 := by
  refine ⟨rfl, by decide, by decide⟩

/-- C4: `MaskedQueue::cas_release` (corrected).  With the source's offset
`offset = cur - done` when `cur > done`, else `cur + len - done` (which is
`(cur - done) mod len` except that it is `len`, not `0`, when `cur = done`),
the release returns the word with exactly bit `INDEX_BITS - 1 + offset`
flipped when both assertions pass (`offset + INDEX_BITS ≤ TOTAL_BITS` and
that bit set), and is a fatal assertion otherwise; all other bits are
unchanged. -/
theorem C4_amended (len current done off : Nat)
    (hoff : off = if current &&& Masked.INDEX_MASK > done
      then (current &&& Masked.INDEX_MASK) - done
      else (current &&& Masked.INDEX_MASK) + len - done) :
    (Masked.cas_release len current done =
      if off + Masked.INDEX_BITS ≤ Masked.TOTAL_BITS ∧
          current.testBit (Masked.INDEX_BITS - 1 + off) = true
        then some (current ^^^ 1 <<< (Masked.INDEX_BITS - 1 + off))
        else none) ∧
    (∀ k, k ≠ Masked.INDEX_BITS - 1 + off →
      (current ^^^ 1 <<< (Masked.INDEX_BITS - 1 + off)).testBit k = current.testBit k) ∧
    (current ^^^ 1 <<< (Masked.INDEX_BITS - 1 + off)).testBit (Masked.INDEX_BITS - 1 + off) =
      !current.testBit (Masked.INDEX_BITS - 1 + off) := by
  refine ⟨?_, ?_, ?_⟩
  · simp only [Masked.cas_release]
    rw [← hoff]
    by_cases h1 : off + Masked.INDEX_BITS ≤ Masked.TOTAL_BITS
    · rw [if_pos h1]
      by_cases h2 : current.testBit (Masked.INDEX_BITS - 1 + off) = true
      · rw [if_pos (by rw [one_shiftLeft_eq, Ne, and_two_pow_eq_zero_iff]; simp [h2]),
          if_pos ⟨h1, h2⟩]
      · rw [if_neg (by rw [one_shiftLeft_eq, Ne, and_two_pow_eq_zero_iff]; simp; simp at h2; exact h2),
          if_neg (by intro hc; exact h2 hc.2)]
    · rw [if_neg h1, if_neg (by intro hc; exact h1 hc.1)]
  · intro k hk
    rw [one_shiftLeft_eq, Nat.testBit_xor, Nat.testBit_two_pow,
      decide_eq_false (fun hc => hk hc.symm), Bool.xor_false]
  · rw [one_shiftLeft_eq, Nat.testBit_xor, Nat.testBit_two_pow, decide_eq_true rfl,
      Bool.xor_true]

/-- C4 witness: a concrete passing release (capacity 4, word
`2 ^ 20 + 1`, reservation at index 0, offset 1). -/
theorem C4_witness :
    (Masked.cas_release 5 (2 ^ 20 + 1) 0 =
      if 1 + Masked.INDEX_BITS ≤ Masked.TOTAL_BITS ∧
          (2 ^ 20 + 1).testBit (Masked.INDEX_BITS - 1 + 1) = true
        then some ((2 ^ 20 + 1) ^^^ 1 <<< (Masked.INDEX_BITS - 1 + 1))
        else none) ∧
    (∀ k, k ≠ Masked.INDEX_BITS - 1 + 1 →
      ((2 ^ 20 + 1) ^^^ 1 <<< (Masked.INDEX_BITS - 1 + 1)).testBit k =
        (2 ^ 20 + 1).testBit k) ∧
    ((2 ^ 20 + 1) ^^^ 1 <<< (Masked.INDEX_BITS - 1 + 1)).testBit (Masked.INDEX_BITS - 1 + 1) =
      !(2 ^ 20 + 1).testBit (Masked.INDEX_BITS - 1 + 1) :=
  C4_amended 5 (2 ^ 20 + 1) 0 1 (by decide)

/-- C4 counterexample: with capacity 4 (`len = 5`), word `2 ^ 24 + 2`
(index 2, in-flight bit at age 5) and reservation index 2, the claim's
offset `(cur - done) mod (capacity + 1) = 0` predicts bit 19, which is not
even set, while the code passes its assertions and flips bit 24. -/
theorem C4_counterexample :
    Masked.cas_release 5 (2 ^ 24 + 2) 2 = some 2 ∧
    (2 ^ 24 + 2).testBit (Masked.INDEX_BITS - 1 +
      (((2 ^ 24 + 2) &&& Masked.INDEX_MASK) + 5 - 2) % 5) = false ∧
    some (2 : Nat) ≠ some ((2 ^ 24 + 2) ^^^ 1 <<< (Masked.INDEX_BITS - 1 +
      (((2 ^ 24 + 2) &&& Masked.INDEX_MASK) + 5 - 2) % 5)) := by
  decide

/-- C5: `MaskedQueue::get_last_used_index` (corrected).  For a word `w`
below `2 ^ 64` whose low `INDEX_BITS` hold an index `i` that is in range
(`i < len`) and whose saturated age satisfies `age ≤ i + len`, the result
is `(i - age) mod len` (integer mod).  Outside those bounds the code
returns `i - age` without reducing modulo `len` (and would underflow). -/
theorem C5_amended (len w : Nat) (hw : w < 2 ^ 64)
    (hi : w &&& Masked.INDEX_MASK < len)
    (hage : (Masked.TOTAL_BITS - Masked.INDEX_BITS) - Masked.leading_zeros w ≤
      (w &&& Masked.INDEX_MASK) + len) :
    (Masked.get_last_used_index len w : Int) =
      ((w &&& Masked.INDEX_MASK : Nat) -
        (((Masked.TOTAL_BITS - Masked.INDEX_BITS) - Masked.leading_zeros w : Nat) : Int)) %
        (len : Int) := by
  simp only [Masked.get_last_used_index]
  by_cases hcase : w &&& Masked.INDEX_MASK ≥
      (Masked.TOTAL_BITS - Masked.INDEX_BITS) - Masked.leading_zeros w
  · rw [if_pos hcase]
    have hsub : ((w &&& Masked.INDEX_MASK : Nat) : Int) -
        (((Masked.TOTAL_BITS - Masked.INDEX_BITS) - Masked.leading_zeros w : Nat) : Int) =
        (((w &&& Masked.INDEX_MASK) -
          ((Masked.TOTAL_BITS - Masked.INDEX_BITS) - Masked.leading_zeros w) : Nat) : Int) := by
      omega
    rw [hsub, Int.emod_eq_of_lt (by omega) (by omega)]
  · rw [if_neg hcase]
    have hsub : ((w &&& Masked.INDEX_MASK : Nat) : Int) -
        (((Masked.TOTAL_BITS - Masked.INDEX_BITS) - Masked.leading_zeros w : Nat) : Int) =
        (((w &&& Masked.INDEX_MASK) + len -
          ((Masked.TOTAL_BITS - Masked.INDEX_BITS) - Masked.leading_zeros w) : Nat) : Int) -
          (len : Int) := by
      omega
    rw [hsub, Int.sub_emod, Int.emod_self, Int.sub_zero,
      Int.emod_emod_of_dvd _ dvd_rfl, Int.emod_eq_of_lt (by omega) (by omega)]

/-- C5 witness: capacity 4 (`len = 5`), word `2 ^ 20 + 3` (index 3, one
in-flight reservation, age 1): the last used index is `(3 - 1) mod 5 = 2`. -/
theorem C5_witness :
    (Masked.get_last_used_index 5 (2 ^ 20 + 3) : Int) =
      (((2 ^ 20 + 3) &&& Masked.INDEX_MASK : Nat) -
        (((Masked.TOTAL_BITS - Masked.INDEX_BITS) - Masked.leading_zeros (2 ^ 20 + 3) : Nat) : Int)) %
        (5 : Int) :=
  C5_amended 5 (2 ^ 20 + 3) (by decide) (by decide) (by decide)

/-- C5 counterexample: with capacity 4 and word 7 (age 0), the code
returns 7, not `(7 - 0) mod 5 = 2` as the claim's formula states. -/
theorem C5_counterexample :
    Masked.get_last_used_index 5 7 = 7 ∧
    ((7 : Int) - (((Masked.TOTAL_BITS - Masked.INDEX_BITS) -
      Masked.leading_zeros 7 : Nat) : Int)) % (5 : Int) = 2 ∧
    (7 : Int) ≠ 2 := by
  decide

/-- C6: destructor assertions (corrected).  `Drop for DoubleQueue` passes
exactly when its two state words agree, but `Drop for MaskedQueue` asserts
that neither word carries in-flight mask bits (`word & !INDEX_MASK == 0`),
not that the two words agree. -/
theorem C6_amended :
    (∀ (T : Type) (q : Double.DoubleQueue T),
      (Double.dropReads q).isSome = true ↔ q.wide = q.narrow) ∧
    (∀ (T : Type) (q : Masked.MaskedQueue T),
      (Masked.dropReads q).isSome = true ↔
        (q.head &&& not64 Masked.INDEX_MASK = 0 ∧
          q.tail &&& not64 Masked.INDEX_MASK = 0)) := by
  constructor
  · intro T q
    simp only [Double.dropReads]
    split
    · simp [*]
    · simp [*]
  · intro T q
    by_cases h1 : q.head &&& not64 Masked.INDEX_MASK = 0
    · by_cases h2 : q.tail &&& not64 Masked.INDEX_MASK = 0
      · simp only [Masked.dropReads]
        rw [if_neg (by simp [h1]), if_neg (by simp [h2])]
        simp [h1, h2]
      · simp only [Masked.dropReads]
        rw [if_neg (by simp [h1]), if_pos h2]
        simp [h2]
    · simp only [Masked.dropReads]
      rw [if_pos h1]
      simp [h1]

/-- C6 counterexample: a `MaskedQueue` whose words disagree (head 1,
tail 0, one element held) passes destruction, contradicting the claim that
destruction passes exactly when the two state words agree. -/
theorem C6_counterexample :
    (Masked.dropReads (⟨1, 0, [none, none]⟩ : Masked.MaskedQueue Nat)).isSome = true ∧
      (⟨1, 0, [none, none]⟩ : Masked.MaskedQueue Nat).head ≠
        (⟨1, 0, [none, none]⟩ : Masked.MaskedQueue Nat).tail := by
  decide

/-- C9: for every variant, a push that returns `Err` and a pop that
returns `None` leave the queue entirely unchanged — no state word, no
occupancy or mask bit, no slot — and the `Err` carries back exactly the
value the caller passed in. -/
theorem C9_theorem : ∀ (T : Type) (v e : T),
    (∀ q q2 : Axel.AxelQueue T,
      Axel.push q v = some (Except.error e, q2) → q2 = q ∧ e = v) ∧
    (∀ q q2 : Axel.AxelQueue T, Axel.pop q = some (none, q2) → q2 = q) ∧
    (∀ q q2 : Double.DoubleQueue T,
      Double.push q v = some (Except.error e, q2) → q2 = q ∧ e = v) ∧
    (∀ q q2 : Double.DoubleQueue T, Double.pop q = some (none, q2) → q2 = q) ∧
    (∀ q q2 : Masked.MaskedQueue T,
      Masked.push q v = some (Except.error e, q2) → q2 = q ∧ e = v) ∧
    (∀ q q2 : Masked.MaskedQueue T, Masked.pop q = some (none, q2) → q2 = q) := by
  intro T v e
  refine ⟨?_, ?_, ?_, ?_, ?_, ?_⟩
  · intro q q2 h
    simp only [Axel.push] at h
    split at h
    · simp only [Option.some.injEq, Prod.mk.injEq, Except.error.injEq] at h
      exact ⟨h.2.symm, h.1.symm⟩
    · split at h
      · simp at h
      · simp at h
  · intro q q2 h
    simp only [Axel.pop] at h
    split at h
    · simp only [Option.some.injEq, Prod.mk.injEq] at h
      exact h.2.symm
    · split at h
      · split at h
        · simp at h
        · simp at h
      · simp at h
  · intro q q2 h
    simp only [Double.push] at h
    split at h
    · simp only [Option.some.injEq, Prod.mk.injEq, Except.error.injEq] at h
      exact ⟨h.2.symm, h.1.symm⟩
    · split at h
      · simp at h
      · simp at h
  · intro q q2 h
    simp only [Double.pop] at h
    split at h
    · simp only [Option.some.injEq, Prod.mk.injEq] at h
      exact h.2.symm
    · split at h
      · simp at h
      · split at h
        · simp at h
        · simp at h
  · intro q q2 h
    simp only [Masked.push] at h
    split at h
    · simp at h
    · simp only [Option.some.injEq, Prod.mk.injEq, Except.error.injEq] at h
      exact ⟨h.2.symm, h.1.symm⟩
    · split at h
      · simp at h
      · simp at h
  · intro q q2 h
    simp only [Masked.pop] at h
    split at h
    · simp at h
    · simp only [Option.some.injEq, Prod.mk.injEq] at h
      exact h.2.symm
    · split at h
      · simp at h
      · split at h
        · simp at h
        · simp at h

/-- C9 witness: a full refusal and an empty pop on concrete queues (Axel
and Double at capacity 0, Masked at capacity 1) return the queue itself. -/
theorem C9_witness :
    (Axel.new (T := Nat) 0 = Axel.new (T := Nat) 0 ∧ (7 : Nat) = 7) ∧
    Axel.new (T := Nat) 0 = Axel.new (T := Nat) 0 ∧
    (Double.new (T := Nat) 0 = Double.new (T := Nat) 0 ∧ (7 : Nat) = 7) ∧
    Double.new (T := Nat) 0 = Double.new (T := Nat) 0 ∧
    ((⟨1, 0, [some 5, none]⟩ : Masked.MaskedQueue Nat) = ⟨1, 0, [some 5, none]⟩ ∧
      (7 : Nat) = 7) ∧
    (⟨0, 0, [none, none]⟩ : Masked.MaskedQueue Nat) = ⟨0, 0, [none, none]⟩ :=
  ⟨(C9_theorem Nat 7 7).1 (Axel.new 0) (Axel.new 0) rfl,
   (C9_theorem Nat 7 7).2.1 (Axel.new 0) (Axel.new 0) rfl,
   (C9_theorem Nat 7 7).2.2.1 (Double.new 0) (Double.new 0) rfl,
   (C9_theorem Nat 7 7).2.2.2.1 (Double.new 0) (Double.new 0) rfl,
   (C9_theorem Nat 7 7).2.2.2.2.1 ⟨1, 0, [some 5, none]⟩ ⟨1, 0, [some 5, none]⟩ rfl,
   (C9_theorem Nat 7 7).2.2.2.2.2 ⟨0, 0, [none, none]⟩ ⟨0, 0, [none, none]⟩ rfl⟩

/-- C10: `OtherQueue` (`src/other.rs`) and `MaskedQueue` (`src/masked.rs`)
implement the same algorithm: under the state identification `toMasked`
(and the enum identification `bcToMasked`), their `get_last_used_index`,
`cas_acquire`, `cas_release`, `new`, `push`, `pop` and drop walks are
extensionally equal, and any sequential script from any capacity produces
equal results and equal final states. -/
theorem C10_theorem :
    (∀ len w : Nat, Other.get_last_used_index len w = Masked.get_last_used_index len w) ∧
    (∀ (len m g : Nat) (bc : Other.BoundsCheck),
      Other.cas_acquire len m g bc = Masked.cas_acquire len m g (Other.bcToMasked bc)) ∧
    (∀ len c d : Nat, Other.cas_release len c d = Masked.cas_release len c d) ∧
    (∀ (T : Type) (c : Nat), (Other.new? (T := T) c).map Other.toMasked = Masked.new? c) ∧
    (∀ (T : Type) (q : Other.OtherQueue T) (v : T),
      (Other.push q v).map (Prod.map id Other.toMasked) = Masked.push (Other.toMasked q) v) ∧
    (∀ (T : Type) (q : Other.OtherQueue T),
      (Other.pop q).map (Prod.map id Other.toMasked) = Masked.pop (Other.toMasked q)) ∧
    (∀ (T : Type) (q : Other.OtherQueue T),
      Other.dropReads q = Masked.dropReads (Other.toMasked q)) ∧
    (∀ (T : Type) (C : Nat) (ops : List (Op T)),
      ((Other.new? (T := T) C).bind
          (fun q0 => runOps Other.push Other.pop q0 ops)).map Other.toMasked =
        (Masked.new? C).bind (fun q0 => runOps Masked.push Masked.pop q0 ops)) := by
  refine ⟨fun len w => rfl, ?_, fun len c d => rfl, ?_, ?_, ?_, ?_, ?_⟩
  · intro len m g bc
    cases bc <;> rfl
  · intro T c
    simp only [Other.new?, Masked.new?]
    split
    · rfl
    · rfl
  · intro T q v
    exact other_push_commute q v
  · intro T q
    exact other_pop_commute q
  · intro T q
    rfl
  · intro T C ops
    simp only [Other.new?, Masked.new?]
    split
    · simp only [Option.bind_some, Option.map]
      exact other_runOps_commute ops _
    · rfl

/-- C8: for every variant and every accepted capacity `C ≥ 2` (for Axel
and Double, any capacity with `C + 1 ≤ 2 ^ 32`, the `Pointer`-width bound
of the model; for Masked, any power of two), on a fresh queue run
sequentially: pop returns `None`; pushing `a` then `b` both return `Ok`;
and the next three pops return `Some a`, `Some b`, `None` in order. -/
theorem C8_theorem : ∀ (T : Type) (C : Nat) (a b : T), 2 ≤ C →
    (C + 1 ≤ 2 ^ 32 →
      (∃ q1 q2 q3 q4,
        Axel.pop (Axel.new (T := T) C) = some (none, Axel.new C) ∧
        Axel.push (Axel.new C) a = some (Except.ok (), q1) ∧
        Axel.push q1 b = some (Except.ok (), q2) ∧
        Axel.pop q2 = some (some a, q3) ∧
        Axel.pop q3 = some (some b, q4) ∧
        Axel.pop q4 = some (none, q4)) ∧
      (∃ q1 q2 q3 q4,
        Double.pop (Double.new (T := T) C) = some (none, Double.new C) ∧
        Double.push (Double.new C) a = some (Except.ok (), q1) ∧
        Double.push q1 b = some (Except.ok (), q2) ∧
        Double.pop q2 = some (some a, q3) ∧
        Double.pop q3 = some (some b, q4) ∧
        Double.pop q4 = some (none, q4))) ∧
    (is_power_of_two C = true →
      ∀ q0 : Masked.MaskedQueue T, Masked.new? C = some q0 →
      ∃ q1 q2 q3 q4,
        Masked.pop q0 = some (none, q0) ∧
        Masked.push q0 a = some (Except.ok (), q1) ∧
        Masked.push q1 b = some (Except.ok (), q2) ∧
        Masked.pop q2 = some (some a, q3) ∧
        Masked.pop q3 = some (some b, q4) ∧
        Masked.pop q4 = some (none, q4)) := by
  intro T C a b hC
  constructor
  · intro h32
    constructor
    · have h0 := Axel.axel_new_rep (T := T) C h32
      obtain ⟨q1, hp1, hr1⟩ := Axel.axel_push_ok h0 a (by simp; omega)
      obtain ⟨q2, hp2, hr2⟩ := Axel.axel_push_ok hr1 b (by simp; omega)
      have hr2b : Axel.Rep C 0 [a, b] q2 := by simpa using hr2
      obtain ⟨q3, hpo1, hr3⟩ := Axel.axel_pop_some hr2b
      obtain ⟨q4, hpo2, hr4⟩ := Axel.axel_pop_some hr3
      exact ⟨q1, q2, q3, q4, Axel.axel_pop_none h0, hp1, hp2, hpo1, hpo2, Axel.axel_pop_none hr4⟩
    · have h0 := Double.double_new_rep (T := T) C h32
      obtain ⟨q1, hp1, hr1⟩ := Double.double_push_ok h0 a (by simp; omega)
      obtain ⟨q2, hp2, hr2⟩ := Double.double_push_ok hr1 b (by simp; omega)
      have hr2b : Double.Rep C 0 [a, b] q2 := by simpa using hr2
      obtain ⟨q3, hpo1, hr3⟩ := Double.double_pop_some hr2b
      obtain ⟨q4, hpo2, hr4⟩ := Double.double_pop_some hr3
      exact ⟨q1, q2, q3, q4, Double.double_pop_none h0, hp1, hp2, hpo1, hpo2, Double.double_pop_none hr4⟩
  · intro hpow q0 hq0
    obtain ⟨hnew, hrep⟩ := Masked.masked_new_rep (T := T) hpow
    rw [hnew] at hq0
    have hq := Option.some.inj hq0
    subst hq
    have ha1 : advance (C + 1) 0 = 1 := by
      unfold advance
      rw [if_neg (by omega)]
    have ha2 : advance (C + 1) 1 = 2 := by
      unfold advance
      rw [if_neg (by omega)]
    obtain ⟨q1, hp1, hr1⟩ := Masked.masked_push_ok hrep a
      (by simp only [List.length_nil, Nat.add_zero, Nat.zero_mod, ha1]; omega)
      (by simp only [List.length_nil, Nat.add_zero, Nat.zero_mod, ha1]; omega)
    have hm1 : (0 + ([] ++ [a] : List T).length) % (C + 1) = 1 := by
      simp only [List.nil_append, List.length_singleton, Nat.zero_add]
      exact Nat.mod_eq_of_lt (by omega)
    obtain ⟨q2, hp2, hr2⟩ := Masked.masked_push_ok hr1 b
      (by rw [hm1, ha2]; omega)
      (by rw [hm1, ha2]; omega)
    have hr2b : Masked.Rep C 0 [a, b] q2 := by simpa using hr2
    obtain ⟨q3, hpo1, hr3⟩ := Masked.pop_ok hr2b (by rw [ha1]; omega)
    obtain ⟨q4, hpo2, hr4⟩ := Masked.pop_ok hr3 (by rw [ha1, ha2]; omega)
    exact ⟨q1, q2, q3, q4, Masked.masked_pop_none hrep, hp1, hp2, hpo1, hpo2, Masked.masked_pop_none hr4⟩

/-- C8 witness: the smoke script at capacity 2 with values 5 and 10, for
all three variants. -/
theorem C8_witness :
    (∃ q1 q2 q3 q4,
      Axel.pop (Axel.new (T := Nat) 2) = some (none, Axel.new 2) ∧
      Axel.push (Axel.new 2) 5 = some (Except.ok (), q1) ∧
      Axel.push q1 10 = some (Except.ok (), q2) ∧
      Axel.pop q2 = some (some 5, q3) ∧
      Axel.pop q3 = some (some 10, q4) ∧
      Axel.pop q4 = some (none, q4)) ∧
    (∃ q1 q2 q3 q4,
      Double.pop (Double.new (T := Nat) 2) = some (none, Double.new 2) ∧
      Double.push (Double.new 2) 5 = some (Except.ok (), q1) ∧
      Double.push q1 10 = some (Except.ok (), q2) ∧
      Double.pop q2 = some (some 5, q3) ∧
      Double.pop q3 = some (some 10, q4) ∧
      Double.pop q4 = some (none, q4)) ∧
    (∃ q1 q2 q3 q4,
      Masked.pop (⟨0, 0, [none, none, none]⟩ : Masked.MaskedQueue Nat) =
        some (none, (⟨0, 0, [none, none, none]⟩ : Masked.MaskedQueue Nat)) ∧
      Masked.push (⟨0, 0, [none, none, none]⟩ : Masked.MaskedQueue Nat) 5 =
        some (Except.ok (), q1) ∧
      Masked.push q1 10 = some (Except.ok (), q2) ∧
      Masked.pop q2 = some (some 5, q3) ∧
      Masked.pop q3 = some (some 10, q4) ∧
      Masked.pop q4 = some (none, q4)) :=
  ⟨((C8_theorem Nat 2 5 10 (by decide)).1 (by decide)).1,
   ((C8_theorem Nat 2 5 10 (by decide)).1 (by decide)).2,
   (C8_theorem Nat 2 5 10 (by decide)).2 (by decide) ⟨0, 0, [none, none, none]⟩ rfl⟩

/-- C1 (corrected): pushing `C + 1` values into a fresh queue gives `Ok`
for the first `C` pushes and one `Err` carrying the last value, then `C`
pops return the first `C` values in order — for Axel and Double under the
`Pointer`-width bound `C + 1 ≤ 2 ^ 32` of the model, and for Masked only
under the additional bound `C + 1 ≤ 2 ^ 20`: at capacity `2 ^ 20` the
index field of the word overflows and the property fails (see the
counterexample). -/
theorem C1_amended_theorem : ∀ (T : Type) (C : Nat) (vs : List T), vs.length = C + 1 →
    (C + 1 ≤ 2 ^ 32 →
      (∃ qf q2,
        pushAll Axel.push (Axel.new (T := T) C) vs =
          some (List.replicate C (Except.ok ()) ++ (vs.drop C).map Except.error, qf) ∧
        popAll Axel.pop qf C = some ((vs.take C).map some, q2)) ∧
      (∃ qf q2,
        pushAll Double.push (Double.new (T := T) C) vs =
          some (List.replicate C (Except.ok ()) ++ (vs.drop C).map Except.error, qf) ∧
        popAll Double.pop qf C = some ((vs.take C).map some, q2))) ∧
    (is_power_of_two C = true → C + 1 ≤ 2 ^ 20 →
      ∀ q0 : Masked.MaskedQueue T, Masked.new? C = some q0 →
      ∃ qf q2,
        pushAll Masked.push q0 vs =
          some (List.replicate C (Except.ok ()) ++ (vs.drop C).map Except.error, qf) ∧
        popAll Masked.pop qf C = some ((vs.take C).map some, q2)) := by
  intro T C vs hlen
  have htake : (vs.take C).length = C := by
    rw [List.length_take]
    omega
  obtain ⟨w, hdrop⟩ : ∃ w, vs.drop C = [w] :=
    List.length_eq_one.1 (by rw [List.length_drop]; omega)
  have hsplit : vs = vs.take C ++ [w] := by
    conv_lhs => rw [← List.take_append_drop C vs]
    rw [hdrop]
  constructor
  · intro h32
    constructor
    · have h0 := Axel.axel_new_rep (T := T) C h32
      obtain ⟨qf, hpushes, hrepf⟩ := genPushAll Axel.push
        (fun xs q => Axel.Rep C 0 xs q) C
        (fun xs q v hrep hlt => Axel.axel_push_ok hrep v hlt)
        (vs.take C) [] (Axel.new C) h0 (by simp [htake])
      have hrepf2 : Axel.Rep C 0 (vs.take C) qf := by simpa using hrepf
      have hfull := Axel.axel_push_full hrepf2 w htake
      obtain ⟨t2, q2, hpops, -⟩ := genPopAll Axel.pop
        (fun t xs q => Axel.Rep C t xs q) (advance (C + 1))
        (fun t x rest q hrep => Axel.axel_pop_some hrep)
        (vs.take C) 0 qf hrepf2
      rw [htake] at hpops
      refine ⟨qf, q2, ?_, hpops⟩
      conv_lhs => rw [hsplit]
      rw [pushAll_append, hpushes]
      dsimp only
      simp only [pushAll, hfull]
      rw [htake, hdrop]
      simp
    · have h0 := Double.double_new_rep (T := T) C h32
      obtain ⟨qf, hpushes, hrepf⟩ := genPushAll Double.push
        (fun xs q => Double.Rep C 0 xs q) C
        (fun xs q v hrep hlt => Double.double_push_ok hrep v hlt)
        (vs.take C) [] (Double.new C) h0 (by simp [htake])
      have hrepf2 : Double.Rep C 0 (vs.take C) qf := by simpa using hrepf
      have hfull := Double.double_push_full hrepf2 w htake
      obtain ⟨t2, q2, hpops, -⟩ := genPopAll Double.pop
        (fun t xs q => Double.Rep C t xs q) (advance (C + 1))
        (fun t x rest q hrep => Double.double_pop_some hrep)
        (vs.take C) 0 qf hrepf2
      rw [htake] at hpops
      refine ⟨qf, q2, ?_, hpops⟩
      conv_lhs => rw [hsplit]
      rw [pushAll_append, hpushes]
      dsimp only
      simp only [pushAll, hfull]
      rw [htake, hdrop]
      simp
  · intro hpow h20 q0 hq0
    obtain ⟨hnew, hrep0⟩ := Masked.masked_new_rep (T := T) hpow
    rw [hnew] at hq0
    have hq := Option.some.inj hq0
    subst hq
    have hOk : ∀ (xs : List T) q v, Masked.Rep C 0 xs q → xs.length < C →
        ∃ q2, Masked.push q v = some (Except.ok (), q2) ∧
          Masked.Rep C 0 (xs ++ [v]) q2 := by
      intro xs q v hrep hlt
      have hm : (0 + xs.length) % (C + 1) = xs.length := by
        rw [Nat.zero_add]
        exact Nat.mod_eq_of_lt (by omega)
      have hadv : advance (C + 1) ((0 + xs.length) % (C + 1)) = xs.length + 1 := by
        rw [hm]
        unfold advance
        rw [if_neg (by omega)]
      exact Masked.masked_push_ok hrep v (by rw [hadv]; omega) (by rw [hadv]; omega)
    obtain ⟨qf, hpushes, hrepf⟩ := genPushAll Masked.push
      (fun xs q => Masked.Rep C 0 xs q) C hOk
      (vs.take C) [] _ hrep0 (by simp [htake])
    have hrepf2 : Masked.Rep C 0 (vs.take C) qf := by simpa using hrepf
    have hm : (0 + (vs.take C).length) % (C + 1) = C := by
      rw [htake, Nat.zero_add]
      exact Nat.mod_eq_of_lt (by omega)
    have hadv : advance (C + 1) ((0 + (vs.take C).length) % (C + 1)) = 0 := by
      rw [hm]
      unfold advance
      rw [if_pos rfl]
    have hcheck : ((1 <<< Masked.INDEX_BITS) |||
        advance (C + 1) ((0 + (vs.take C).length) % (C + 1))) &&&
        Masked.INDEX_MASK = 0 := by
      rw [hadv, Masked.INDEX_BITS, one_shiftLeft_eq, Nat.or_zero,
        Masked.and_mask_eq_mod, Nat.mod_self]
    have hfull := Masked.push_refuse hrepf2 w hcheck
    obtain ⟨t2, q2, hpops, -⟩ := genPopAll Masked.pop
      (fun t xs q => Masked.Rep C t xs q) (advance (C + 1))
      (fun t x rest q hrep =>
        Masked.pop_ok hrep (Nat.lt_of_lt_of_le (advance_lt hrep.ht) h20))
      (vs.take C) 0 qf hrepf2
    rw [htake] at hpops
    refine ⟨qf, q2, ?_, hpops⟩
    conv_lhs => rw [hsplit]
    rw [pushAll_append, hpushes]
    dsimp only
    simp only [pushAll, hfull]
    rw [htake, hdrop]
    simp

/-- C1 witness: capacity 2, values `[0, 1, 2]`: two `Ok`, one `Err 2`,
then two pops returning 0 and 1, for all three variants. -/
theorem C1_witness :
    (∃ qf q2,
      pushAll Axel.push (Axel.new (T := Nat) 2) [0, 1, 2] =
        some (List.replicate 2 (Except.ok ()) ++
          (([0, 1, 2] : List Nat).drop 2).map Except.error, qf) ∧
      popAll Axel.pop qf 2 = some ((([0, 1, 2] : List Nat).take 2).map some, q2)) ∧
    (∃ qf q2,
      pushAll Double.push (Double.new (T := Nat) 2) [0, 1, 2] =
        some (List.replicate 2 (Except.ok ()) ++
          (([0, 1, 2] : List Nat).drop 2).map Except.error, qf) ∧
      popAll Double.pop qf 2 = some ((([0, 1, 2] : List Nat).take 2).map some, q2)) ∧
    (∃ qf q2,
      pushAll Masked.push (⟨0, 0, [none, none, none]⟩ : Masked.MaskedQueue Nat) [0, 1, 2] =
        some (List.replicate 2 (Except.ok ()) ++
          (([0, 1, 2] : List Nat).drop 2).map Except.error, qf) ∧
      popAll Masked.pop qf 2 = some ((([0, 1, 2] : List Nat).take 2).map some, q2)) :=
  ⟨((C1_amended_theorem Nat 2 [0, 1, 2] (by decide)).1 (by decide)).1,
   ((C1_amended_theorem Nat 2 [0, 1, 2] (by decide)).1 (by decide)).2,
   (C1_amended_theorem Nat 2 [0, 1, 2] (by decide)).2 (by decide) (by decide)
     ⟨0, 0, [none, none, none]⟩ rfl⟩

/-- C1 counterexample: `MaskedQueue::new(2 ^ 20)` is accepted, but pushing
`2 ^ 20 + 1` values does not produce `2 ^ 20` `Ok`s followed by one `Err`:
the `2 ^ 20`-th push already fails, because the advanced index field wraps
to `2 ^ 20`, whose low 20 bits alias index 0 = tail, so the bounds check
refuses a queue that is not full. -/
theorem C1_counterexample :
    (Masked.new? (T := Nat) (2 ^ 20)).isSome = true ∧
    ¬∃ qf, pushAll Masked.push
        (⟨0, 0, List.replicate (2 ^ 20 + 1) none⟩ : Masked.MaskedQueue Nat)
        (List.range (2 ^ 20 + 1)) =
      some (List.replicate (2 ^ 20) (Except.ok ()) ++ [Except.error (2 ^ 20)], qf) := by
  constructor
  · simp only [Masked.new?]
    rw [if_pos (by decide)]
    rfl
  · rintro ⟨qf, hclaim⟩
    have hpow : is_power_of_two (2 ^ 20) = true := by decide
    obtain ⟨hnew, hrep0⟩ := Masked.masked_new_rep (T := Nat) (C := 2 ^ 20) hpow
    have hOk : ∀ (xs : List Nat) q v, Masked.Rep (2 ^ 20) 0 xs q →
        xs.length < 2 ^ 20 - 1 →
        ∃ q2, Masked.push q v = some (Except.ok (), q2) ∧
          Masked.Rep (2 ^ 20) 0 (xs ++ [v]) q2 := by
      intro xs q v hrep hlt
      have hm : (0 + xs.length) % (2 ^ 20 + 1) = xs.length := by
        rw [Nat.zero_add]
        exact Nat.mod_eq_of_lt (by omega)
      have hadv : advance (2 ^ 20 + 1) ((0 + xs.length) % (2 ^ 20 + 1)) =
          xs.length + 1 := by
        rw [hm]
        unfold advance
        rw [if_neg (by omega)]
      exact Masked.masked_push_ok hrep v (by rw [hadv]; omega) (by rw [hadv]; omega)
    obtain ⟨qf1, hpushes, hrepf⟩ := genPushAll Masked.push
      (fun xs q => Masked.Rep (2 ^ 20) 0 xs q) (2 ^ 20 - 1) hOk
      (List.range (2 ^ 20 - 1)) [] _ hrep0
      (by rw [List.length_nil, List.length_range]; omega)
    have hrepf2 : Masked.Rep (2 ^ 20) 0 (List.range (2 ^ 20 - 1)) qf1 := by
      rw [List.nil_append] at hrepf
      exact hrepf
    have hm : (0 + (List.range (2 ^ 20 - 1)).length) % (2 ^ 20 + 1) = 2 ^ 20 - 1 := by
      rw [List.length_range, Nat.zero_add]
      exact Nat.mod_eq_of_lt (by omega)
    have hadv : advance (2 ^ 20 + 1)
        ((0 + (List.range (2 ^ 20 - 1)).length) % (2 ^ 20 + 1)) = 2 ^ 20 := by
      rw [hm]
      unfold advance
      rw [if_neg (by omega)]
      omega
    have hcheck : ((1 <<< Masked.INDEX_BITS) ||| advance (2 ^ 20 + 1)
        ((0 + (List.range (2 ^ 20 - 1)).length) % (2 ^ 20 + 1))) &&&
        Masked.INDEX_MASK = 0 := by
      rw [hadv, Masked.INDEX_BITS, one_shiftLeft_eq, Nat.or_self,
        Masked.and_mask_eq_mod, Nat.mod_self]
    have href1 := Masked.push_refuse hrepf2 (2 ^ 20 - 1) hcheck
    have href2 := Masked.push_refuse hrepf2 (2 ^ 20) hcheck
    have hmap : (List.range 2).map (fun i => 2 ^ 20 - 1 + i) = [2 ^ 20 - 1, 2 ^ 20] := by
      decide
    have hsplitrange : List.range (2 ^ 20 + 1) =
        List.range (2 ^ 20 - 1) ++ [2 ^ 20 - 1, 2 ^ 20] := by
      have h2 : 2 ^ 20 + 1 = (2 ^ 20 - 1) + 2 := by omega
      rw [h2, List.range_add, hmap]
    have hactual : pushAll Masked.push
        (⟨0, 0, List.replicate (2 ^ 20 + 1) none⟩ : Masked.MaskedQueue Nat)
        (List.range (2 ^ 20 + 1)) =
        some (List.replicate (2 ^ 20 - 1) (Except.ok ()) ++
          [Except.error (2 ^ 20 - 1), Except.error (2 ^ 20)], qf1) := by
      rw [hsplitrange, pushAll_append, hpushes]
      dsimp only
      simp only [pushAll, href1, href2]
      rw [List.length_range]
    have heq : (some (List.replicate (2 ^ 20) (Except.ok ()) ++
          [Except.error (2 ^ 20)], qf) :
        Option (List (Except Nat Unit) × Masked.MaskedQueue Nat)) =
        some (List.replicate (2 ^ 20 - 1) (Except.ok ()) ++
          [Except.error (2 ^ 20 - 1), Except.error (2 ^ 20)], qf1) :=
      hclaim.symm.trans hactual
    have hl : List.replicate (2 ^ 20) (Except.ok ()) ++ [Except.error (2 ^ 20)] =
        List.replicate (2 ^ 20 - 1) (Except.ok ()) ++
          [Except.error (2 ^ 20 - 1), Except.error (2 ^ 20)] :=
      congrArg Prod.fst (Option.some.inj heq)
    have he := congrArg (fun l => l[2 ^ 20 - 1]?) hl
    dsimp only at he
    have hL : (List.replicate (2 ^ 20) (Except.ok ()) ++
        [Except.error (2 ^ 20)] : List (Except Nat Unit))[2 ^ 20 - 1]? =
        some (Except.ok ()) := by
      rw [List.getElem?_append_left (by rw [List.length_replicate]; omega),
        List.getElem?_replicate, if_pos (by omega)]
    have hR : (List.replicate (2 ^ 20 - 1) (Except.ok ()) ++
        [Except.error (2 ^ 20 - 1), Except.error (2 ^ 20)] :
          List (Except Nat Unit))[2 ^ 20 - 1]? =
        some (Except.error (2 ^ 20 - 1)) := by
      rw [List.getElem?_append_right (by rw [List.length_replicate]),
        List.length_replicate, Nat.sub_self]
      rfl
    rw [hL, hR] at he
    simp at he

/-- C7: for every variant and every sequentially reachable state holding
`k` elements, the destructor reads exactly the `k` held elements — each a
genuine value, never an uninitialized slot — walking pairwise distinct
slots from tail to head, so the element destructor runs exactly `k`
times. -/
theorem C7_theorem : ∀ (T : Type) (C : Nat) (ops : List (Op T)),
    (C + 1 ≤ 2 ^ 32 →
      (∀ qf, runOps Axel.push Axel.pop (Axel.new (T := T) C) ops = some qf →
        ∃ xs : List T, Axel.dropReads qf = xs.map some ∧
          (Axel.dropSlots qf).Nodup ∧
          xs.length = qf.data.countP (fun o => o.isSome)) ∧
      (∀ qf, runOps Double.push Double.pop (Double.new (T := T) C) ops = some qf →
        ∃ xs : List T, Double.dropReads qf = some (xs.map some) ∧
          (Double.dropSlots qf).Nodup ∧
          xs.length = qf.data.countP (fun o => o.isSome))) ∧
    (is_power_of_two C = true →
      ∀ q0 qf : Masked.MaskedQueue T, Masked.new? C = some q0 →
        runOps Masked.push Masked.pop q0 ops = some qf →
        ∃ xs : List T, Masked.dropReads qf = some (xs.map some) ∧
          (Masked.dropSlots qf).Nodup ∧
          xs.length = qf.data.countP (fun o => o.isSome)) := by
  intro T C ops
  constructor
  · intro h32
    constructor
    · intro qf hrun
      obtain ⟨t2, xs2, hrep⟩ :=
        axel_run_rep ops C 0 [] (Axel.new C) qf (Axel.axel_new_rep C h32) hrun
      obtain ⟨h1, h2, h3⟩ := axel_drop_spec hrep
      exact ⟨xs2, h1, h2, h3⟩
    · intro qf hrun
      obtain ⟨t2, xs2, hrep⟩ :=
        double_run_rep ops C 0 [] (Double.new C) qf (Double.double_new_rep C h32) hrun
      obtain ⟨h1, h2, h3⟩ := double_drop_spec hrep
      exact ⟨xs2, h1, h2, h3⟩
  · intro hpow q0 qf hq0 hrun
    obtain ⟨hnew, hrep0⟩ := Masked.masked_new_rep (T := T) hpow
    rw [hnew] at hq0
    have hq := Option.some.inj hq0
    subst hq
    obtain ⟨t2, xs2, hrep⟩ := masked_run_rep ops C 0 [] _ qf hrep0 hrun
    obtain ⟨h1, h2, h3⟩ := masked_drop_spec hrep
    exact ⟨xs2, h1, h2, h3⟩

/-- C7 witness: capacity 1, script `[push 5]`: each final queue holds one
element, and its drop walk reads exactly `[some 5]` over distinct slots. -/
theorem C7_witness :
    (∃ xs : List Nat,
      Axel.dropReads (⟨1, [1], [some 5, none]⟩ : Axel.AxelQueue Nat) = xs.map some ∧
      (Axel.dropSlots (⟨1, [1], [some 5, none]⟩ : Axel.AxelQueue Nat)).Nodup ∧
      xs.length = (⟨1, [1], [some 5, none]⟩ :
        Axel.AxelQueue Nat).data.countP (fun o => o.isSome)) ∧
    (∃ xs : List Nat,
      Double.dropReads (⟨1, 1, [some 5, none]⟩ : Double.DoubleQueue Nat) =
        some (xs.map some) ∧
      (Double.dropSlots (⟨1, 1, [some 5, none]⟩ : Double.DoubleQueue Nat)).Nodup ∧
      xs.length = (⟨1, 1, [some 5, none]⟩ :
        Double.DoubleQueue Nat).data.countP (fun o => o.isSome)) ∧
    (∃ xs : List Nat,
      Masked.dropReads (⟨1, 0, [some 5, none]⟩ : Masked.MaskedQueue Nat) =
        some (xs.map some) ∧
      (Masked.dropSlots (⟨1, 0, [some 5, none]⟩ : Masked.MaskedQueue Nat)).Nodup ∧
      xs.length = (⟨1, 0, [some 5, none]⟩ :
        Masked.MaskedQueue Nat).data.countP (fun o => o.isSome)) :=
  ⟨((C7_theorem Nat 1 [Op.push 5]).1 (by decide)).1 ⟨1, [1], [some 5, none]⟩ rfl,
   ((C7_theorem Nat 1 [Op.push 5]).1 (by decide)).2 ⟨1, 1, [some 5, none]⟩ rfl,
   (C7_theorem Nat 1 [Op.push 5]).2 (by decide) ⟨0, 0, [none, none]⟩
     ⟨1, 0, [some 5, none]⟩ rfl rfl⟩

end Claims

end SynQueue
